import Mathlib

/-!
Verification of the foxxll scheduling layer: a shallow embedding of
`foxxll/mng/block_prefetcher.hpp` (asynchronous block prefetching engine)
and `foxxll/mng/buf_ostream.hpp` (buffered output stream), with theorems
about the properties stated in the specification.

The prefetcher is modelled as a state machine whose asynchronous I/O
completions are explicit steps; every operation additionally emits a list
of observable events (issue, completion callback, signal switch-on, block
delivery) so that temporal properties can be stated over run traces.
The buffered output stream is modelled as a pure state machine over the
record type.
-/

namespace Foxxll

/-! ### List helpers -/

theorem getD_set_self {α : Type} (l : List α) (i : Nat) (a d : α)
    (h : i < l.length) : (l.set i a).getD i d = a := by
  simp [List.getD_eq_getElem?_getD, List.getElem?_set_self, h]

theorem getD_set_other {α : Type} (l : List α) (i j : Nat) (a d : α)
    (h : i ≠ j) : (l.set i a).getD j d = l.getD j d := by
  simp [List.getD_eq_getElem?_getD, List.getElem?_set_ne, h]

theorem getD_append_left {α : Type} (l m : List α) (i : Nat) (d : α)
    (h : i < l.length) : (l ++ m).getD i d = l.getD i d := by
  simp [List.getD_eq_getElem?_getD, List.getElem?_append_left, h]

/-! ### Buffered output stream (`buf_ostream.hpp`)

State of a `buf_ostream`: the block capacity (`block_type::size`), the
current position of the output-bid iterator (`current_bid`), the offset
into the current block (`current_elem`), the contents of the current
block (`current_blk`), and the list of blocks handed to the write-behind
pool so far, each paired with the bid-iterator position it was written
to.  A fresh free block obtained from the pool is modelled as a block
filled with the default record (its real contents are unspecified). -/

structure BufOStream (α : Type) [Inhabited α] where
  capacity : Nat
  current_bid : Nat
  current_elem : Nat
  current_blk : List α
  written : List (Nat × List α)
deriving Repr

variable {α : Type} [Inhabited α]

/-- A fresh free block from the write-behind pool (contents unspecified,
modelled as default-filled). -/
def freshBlock (α : Type) [Inhabited α] (capacity : Nat) : List α :=
  List.replicate capacity default

/-- Constructor `buf_ostream::buf_ostream(first_bid, nbuffers)`: offset 0, fresh
current block, nothing written yet. -/
def mkBufOStream (α : Type) [Inhabited α] (capacity first_bid : Nat) :
    BufOStream α :=
  { capacity := capacity
    current_bid := first_bid
    current_elem := 0
    current_blk := freshBlock α capacity
    written := [] }

/-- Append via `buf_ostream::operator<<(record)`: store the record at the current
offset and advance; when the offset reaches the block capacity, hand the
full block to the writer for the next bid and start a fresh block at
offset 0. -/
def astream_append (s : BufOStream α) (record : α) : BufOStream α :=
  let blk := s.current_blk.set s.current_elem record
  if s.current_elem + 1 ≥ s.capacity then
    { s with
      current_elem := 0
      current_blk := freshBlock α s.capacity
      current_bid := s.current_bid + 1
      written := s.written ++ [(s.current_bid, blk)] }
  else
    { s with current_elem := s.current_elem + 1, current_blk := blk }

/-- Appending a whole list of records with `operator<<`, in order. -/
def appendAll (s : BufOStream α) (records : List α) : BufOStream α :=
  records.foldl astream_append s

/-- Assignment through `buf_ostream::current()` / `operator*`: overwrite
the record at the current offset, without advancing. -/
def astream_setCurrent (s : BufOStream α) (record : α) : BufOStream α :=
  { s with current_blk := s.current_blk.set s.current_elem record }

/-- Advance via `buf_ostream::operator++()`: advance the offset; when it reaches the
block capacity, hand the full block to the writer for the next bid and
start a fresh block at offset 0. -/
def astream_inc (s : BufOStream α) : BufOStream α :=
  if s.current_elem + 1 ≥ s.capacity then
    { s with
      current_elem := 0
      current_blk := freshBlock α s.capacity
      current_bid := s.current_bid + 1
      written := s.written ++ [(s.current_bid, s.current_blk)] }
  else
    { s with current_elem := s.current_elem + 1 }

/-- Padding via `buf_ostream::fill(record)`: append `record` while the offset is not
zero (the loop body is `operator<<(record)`; the final append that wraps
the offset to 0 is written as the non-recursive branch so that the
recursion is structurally decreasing). -/
def astream_fill (s : BufOStream α) (record : α) : BufOStream α :=
  if s.current_elem = 0 then s
  else if s.current_elem + 1 ≥ s.capacity then astream_append s record
  else astream_fill (astream_append s record) record
termination_by s.capacity - s.current_elem
decreasing_by
  simp only [astream_append]
  split <;> simp_all <;> omega

/-- Forced flush `buf_ostream::flush()`: hand the current block to the writer
unconditionally (regardless of fill level) and reset the offset to 0. -/
def astream_flush (s : BufOStream α) : BufOStream α :=
  { s with
    current_elem := 0
    current_blk := freshBlock α s.capacity
    current_bid := s.current_bid + 1
    written := s.written ++ [(s.current_bid, s.current_blk)] }

/-! ### Behaviour of record appends -/

theorem appendAll_append (s : BufOStream α) (l m : List α) :
    appendAll s (l ++ m) = appendAll (appendAll s l) m :=
  List.foldl_append astream_append s l m

theorem set_eq_take_cons_drop (b : List α) (i : Nat) (r : α)
    (h : i < b.length) : b.set i r = b.take i ++ r :: b.drop (i + 1) := by
  rw [List.set_eq_take_append_cons_drop, if_pos h]

/-- Appending one full block's worth of records from the current offset
flushes exactly one block: the current block's prefix followed by the
appended records. -/
theorem appendAll_flush_one (l : List α) :
    ∀ s : BufOStream α, 0 < l.length →
    s.current_elem + l.length = s.capacity →
    s.current_blk.length = s.capacity →
    appendAll s l =
      { s with
        current_elem := 0
        current_blk := freshBlock α s.capacity
        current_bid := s.current_bid + 1
        written := s.written ++
          [(s.current_bid, s.current_blk.take s.current_elem ++ l)] } := by
  induction l with
  | nil => intro s h0 _ _; simp at h0
  | cons r rs ih =>
    intro s _ hlen hblk
    have hi : s.current_elem < s.current_blk.length := by
      simp at hlen ⊢; omega
    have hset : s.current_blk.set s.current_elem r =
        s.current_blk.take s.current_elem ++
          r :: s.current_blk.drop (s.current_elem + 1) :=
      set_eq_take_cons_drop _ _ _ hi
    have htake : (s.current_blk.take s.current_elem).length =
        s.current_elem := by
      simp; omega
    rcases rs with _ | ⟨r2, rs2⟩
    · -- last record of the block: `operator<<` takes the flush branch
      have hfull : s.current_elem + 1 ≥ s.capacity := by simp at hlen; omega
      show astream_append s r = _
      rw [astream_append]
      simp only [if_pos hfull]
      have : s.current_blk.set s.current_elem r =
          s.current_blk.take s.current_elem ++ [r] := by
        rw [hset]
        have hdrop : s.current_blk.drop (s.current_elem + 1) = [] := by
          apply List.drop_eq_nil_of_le
          simp at hlen ⊢; omega
        rw [hdrop]
      rw [this]
    · -- not yet full: `operator<<` stores and advances, then recurse
      have hlt : ¬ (s.current_elem + 1 ≥ s.capacity) := by
        simp at hlen ⊢; omega
      show appendAll (astream_append s r) (r2 :: rs2) = _
      rw [astream_append]
      simp only [if_neg hlt]
      rw [ih _ (by simp) (by simp at hlen ⊢; omega) (by simp; omega)]
      congr 1
      · -- the flushed block contents agree
        rw [hset]
        rw [List.take_append_eq_append_take, htake]
        simp


/-- Appending fewer records than the space left in the current block
only advances the offset and overwrites the corresponding records;
nothing is flushed. -/
theorem appendAll_under (l : List α) :
    ∀ s : BufOStream α,
    s.current_elem + l.length < s.capacity →
    s.current_blk.length = s.capacity →
    appendAll s l =
      { s with
        current_elem := s.current_elem + l.length
        current_blk := s.current_blk.take s.current_elem ++ l ++
          s.current_blk.drop (s.current_elem + l.length) } := by
  induction l with
  | nil =>
    intro s _ _
    show s = _
    simp
  | cons r rs ih =>
    intro s hfit hblk
    have hlen : s.current_elem + (rs.length + 1) < s.capacity := by
      simpa using hfit
    have hi : s.current_elem < s.current_blk.length := by rw [hblk]; omega
    have hset : s.current_blk.set s.current_elem r =
        s.current_blk.take s.current_elem ++
          r :: s.current_blk.drop (s.current_elem + 1) :=
      set_eq_take_cons_drop _ _ _ hi
    have htake : (s.current_blk.take s.current_elem).length =
        s.current_elem := by
      simp; omega
    have hlt : ¬ (s.current_elem + 1 ≥ s.capacity) := by omega
    show appendAll (astream_append s r) rs = _
    rw [astream_append]
    simp only [if_neg hlt]
    rw [ih _ (by simp; omega) (by simp; omega)]
    have haveA : (s.current_blk.set s.current_elem r).take
        (s.current_elem + 1) = s.current_blk.take s.current_elem ++ [r] := by
      rw [hset, List.take_append_eq_append_take, htake]
      have h1 : s.current_elem + 1 - s.current_elem = 1 := by omega
      rw [h1, List.take_of_length_le (by omega)]
      simp
    have haveB : (s.current_blk.set s.current_elem r).drop
        (s.current_elem + 1 + rs.length)
        = s.current_blk.drop (s.current_elem + (rs.length + 1)) := by
      rw [hset, List.drop_append_eq_append_drop, htake]
      have h1 : s.current_elem + 1 + rs.length - s.current_elem
          = 1 + rs.length := by omega
      rw [h1, List.drop_eq_nil_of_le (by omega)]
      have h2 : 1 + rs.length = rs.length + 1 := by omega
      rw [h2]
      simp only [List.nil_append, List.drop_succ_cons, List.drop_drop]
      have h3 : s.current_elem + 1 + rs.length
          = s.current_elem + (rs.length + 1) := by omega
      rw [h3]
    rw [haveA, haveB]
    have helem2 : s.current_elem + 1 + rs.length
        = s.current_elem + (rs.length + 1) := by omega
    rw [helem2]
    simp

/-- Appending a sequence of exactly-full blocks from a block-aligned
state flushes exactly those blocks, in order, to consecutive bids. -/
theorem appendAll_blocks (blocks : List (List α)) :
    ∀ s : BufOStream α, 0 < s.capacity →
    s.current_elem = 0 →
    s.current_blk = freshBlock α s.capacity →
    (∀ b ∈ blocks, b.length = s.capacity) →
    appendAll s blocks.flatten =
      { s with
        current_bid := s.current_bid + blocks.length
        written := s.written ++
          (List.range' s.current_bid blocks.length).zip blocks } := by
  induction blocks with
  | nil =>
    intro s _ _ _ _
    show s = _
    simp
  | cons b bs ih =>
    intro s hcap helem hblk hall
    have hb : b.length = s.capacity := hall b (by simp)
    have hflat : (b :: bs).flatten = b ++ bs.flatten := by simp
    rw [hflat, appendAll_append]
    rw [appendAll_flush_one b s (by rw [hb]; exact hcap)
      (by rw [helem, hb]; simp) (by rw [hblk]; simp [freshBlock])]
    rw [ih _ (by simpa using hcap) (by simp) (by simp [freshBlock])
      (by intro b2 hb2; simpa using hall b2 (by simp [hb2]))]
    simp only [helem, List.take_zero, List.nil_append]
    have hr : List.range' s.current_bid (bs.length + 1)
        = s.current_bid :: List.range' (s.current_bid + 1) bs.length :=
      List.range'_succ s.current_bid bs.length 1
    have hbid : s.current_bid + 1 + bs.length
        = s.current_bid + (bs.length + 1) := by omega
    simp only [List.length_cons]
    rw [hr, hbid, hblk]
    simp

/-- Calling `fill` from a non-zero offset behaves as appending the record until
the block is exactly full. -/
theorem fill_eq_appendAll (n : Nat) :
    ∀ (s : BufOStream α) (x : α), s.current_elem ≠ 0 →
    s.current_elem < s.capacity → s.capacity - s.current_elem = n →
    astream_fill s x = appendAll s (List.replicate n x) := by
  induction n with
  | zero => intro s x h0 hlt hn; omega
  | succ n ih =>
    intro s x h0 hlt hn
    rw [astream_fill]
    simp only [if_neg h0]
    by_cases hfull : s.current_elem + 1 ≥ s.capacity
    · have : n = 0 := by omega
      subst this
      simp only [if_pos hfull]
      rfl
    · simp only [if_neg hfull]
      have step : astream_append s x =
          { s with current_elem := s.current_elem + 1
                   current_blk := s.current_blk.set s.current_elem x } := by
        rw [astream_append]
        simp only [if_neg hfull]
      rw [ih (astream_append s x) x (by rw [step]; simp)
        (by rw [step]; simp; omega) (by rw [step]; simp; omega)]
      rfl

/-- Appending a short record list to a block-aligned stream and then
calling `fill` flushes one block: the appended records padded to the
block capacity with the fill record. -/
theorem fill_pads (rest : List α) (x : α) (s : BufOStream α)
    (hcap : 0 < s.capacity) (helem : s.current_elem = 0)
    (hblk : s.current_blk = freshBlock α s.capacity)
    (hr0 : rest ≠ []) (hr : rest.length < s.capacity) :
    astream_fill (appendAll s rest) x =
      { s with
        current_elem := 0
        current_blk := freshBlock α s.capacity
        current_bid := s.current_bid + 1
        written := s.written ++ [(s.current_bid,
          rest ++ List.replicate (s.capacity - rest.length) x)] } := by
  rcases s with ⟨cap, bid, elem, blk, w⟩
  dsimp only at helem hblk hcap hr
  subst helem
  subst hblk
  have r0 : 0 < rest.length := List.length_pos.mpr hr0
  have hu := appendAll_under rest ⟨cap, bid, 0, freshBlock α cap, w⟩
    (by simpa using hr) (by simp [freshBlock])
  simp only at hu
  rw [hu]
  simp only [List.take_zero, List.nil_append, Nat.zero_add]
  have hdl : ((freshBlock α cap).drop rest.length).length
      = cap - rest.length := by
    simp [freshBlock]
  have hf := fill_eq_appendAll (cap - rest.length)
    ⟨cap, bid, rest.length, rest ++ (freshBlock α cap).drop rest.length, w⟩
    x (by show rest.length ≠ 0; omega) (by show rest.length < cap; omega)
    (by show cap - rest.length = cap - rest.length; rfl)
  simp only at hf
  rw [hf]
  have hfl := appendAll_flush_one (List.replicate (cap - rest.length) x)
    ⟨cap, bid, rest.length, rest ++ (freshBlock α cap).drop rest.length, w⟩
    (by simp only [List.length_replicate]; omega)
    (by show rest.length + (List.replicate (cap - rest.length) x).length
          = cap
        simp only [List.length_replicate]; omega)
    (by show (rest ++ (freshBlock α cap).drop rest.length).length = cap
        simp only [List.length_append, List.length_drop, freshBlock,
          List.length_replicate]
        omega)
  simp only at hfl
  rw [hfl]
  have htk : ((rest ++ (freshBlock α cap).drop rest.length).take rest.length)
      = rest := by
    rw [List.take_append_eq_append_take]
    simp
  rw [htk]

/-- C7: appending exactly `capacity * M` records (given as `M` full
blocks) flushes exactly those `M` blocks, unpadded, to the first `M`
output bids and leaves the offset at 0; appending `r` more records
(`0 < r < capacity`) and calling `fill x` flushes one further block
consisting of those records padded with `x` up to the capacity, again
leaving the offset at 0. -/
theorem buf_ostream_blocks_and_fill {α : Type} [Inhabited α]
    (cap bid0 : Nat) (x : α) (blocks : List (List α)) (rest : List α)
    (hcap : 0 < cap) (hb : ∀ b ∈ blocks, b.length = cap)
    (hr0 : rest ≠ []) (hr : rest.length < cap) :
    appendAll (mkBufOStream α cap bid0) blocks.flatten =
      { capacity := cap
        current_bid := bid0 + blocks.length
        current_elem := 0
        current_blk := freshBlock α cap
        written := (List.range' bid0 blocks.length).zip blocks } ∧
    astream_fill (appendAll (mkBufOStream α cap bid0)
        (blocks.flatten ++ rest)) x =
      { capacity := cap
        current_bid := bid0 + blocks.length + 1
        current_elem := 0
        current_blk := freshBlock α cap
        written := (List.range' bid0 blocks.length).zip blocks ++
          [(bid0 + blocks.length,
            rest ++ List.replicate (cap - rest.length) x)] } := by
  have key1 : appendAll (mkBufOStream α cap bid0) blocks.flatten =
      { capacity := cap
        current_bid := bid0 + blocks.length
        current_elem := 0
        current_blk := freshBlock α cap
        written := (List.range' bid0 blocks.length).zip blocks } := by
    rw [appendAll_blocks blocks (mkBufOStream α cap bid0) hcap rfl rfl hb]
    simp [mkBufOStream]
  refine ⟨key1, ?_⟩
  rw [appendAll_append, key1]
  rw [fill_pads rest x _ hcap rfl rfl hr0 hr]

/-- Concrete instance of `buf_ostream_blocks_and_fill` with capacity 2,
one full block and a one-record remainder. -/
theorem buf_ostream_blocks_and_fill_witness :
    appendAll (mkBufOStream Nat 2 0) [[1, 2]].flatten =
      { capacity := 2
        current_bid := 0 + [[1, 2]].length
        current_elem := 0
        current_blk := freshBlock Nat 2
        written := (List.range' 0 [[1, 2]].length).zip [[1, 2]] } ∧
    astream_fill (appendAll (mkBufOStream Nat 2 0)
        ([[1, 2]].flatten ++ [5])) 9 =
      { capacity := 2
        current_bid := 0 + [[1, 2]].length + 1
        current_elem := 0
        current_blk := freshBlock Nat 2
        written := (List.range' 0 [[1, 2]].length).zip [[1, 2]] ++
          [(0 + [[1, 2]].length,
            [5] ++ List.replicate (2 - [5].length) 9)] } :=
  buf_ostream_blocks_and_fill 2 0 9 [[1, 2]] [5]
    (by decide) (by decide) (by decide) (by decide)

/-- C9: `fill` at offset 0 is a no-op (nothing appended, nothing handed
to the writer, bid iterator unmoved, offset still 0), whereas `flush`
unconditionally hands the current block to the writer and advances the
bid iterator. -/
theorem buf_ostream_fill_noop_at_zero (s : BufOStream α) (x : α)
    (h : s.current_elem = 0) :
    astream_fill s x = s ∧
    (astream_flush s).written
      = s.written ++ [(s.current_bid, s.current_blk)] ∧
    (astream_flush s).current_bid = s.current_bid + 1 ∧
    (astream_flush s).current_elem = 0 := by
  refine ⟨?_, rfl, rfl, rfl⟩
  rw [astream_fill]
  simp [h]

/-- Concrete instance of `buf_ostream_fill_noop_at_zero` on a freshly
constructed stream. -/
theorem buf_ostream_fill_noop_at_zero_witness :
    astream_fill (mkBufOStream Nat 2 0) 7 = mkBufOStream Nat 2 0 ∧
    (astream_flush (mkBufOStream Nat 2 0)).written
      = (mkBufOStream Nat 2 0).written ++
        [((mkBufOStream Nat 2 0).current_bid,
          (mkBufOStream Nat 2 0).current_blk)] ∧
    (astream_flush (mkBufOStream Nat 2 0)).current_bid
      = (mkBufOStream Nat 2 0).current_bid + 1 ∧
    (astream_flush (mkBufOStream Nat 2 0)).current_elem = 0 :=
  buf_ostream_fill_noop_at_zero (mkBufOStream Nat 2 0) 7 rfl

/-- C10: assigning a record through `current()` / `operator*` and then
applying `operator++` produces exactly the state that `operator<<` with
that record produces; in particular at offset `capacity - 1` the
increment flushes the block just as `operator<<` does. -/
theorem buf_ostream_inc_eq_append (s : BufOStream α) (r : α) :
    astream_inc (astream_setCurrent s r) = astream_append s r := rfl

/-! ### Block prefetcher (`block_prefetcher.hpp`)

The engine is modelled as a state machine.  Block buffers are identified
by their slot index (`buffer - read_buffers` in the source).  A pending
read request is a pair of the consumption-sequence position being read
and a flag saying whether the underlying I/O has completed; `none` in a
slot of `read_reqs` models a null `request_ptr`.  The `onoff_switch`
array `completed` and the position-to-slot map `pref_buffer` are lists
indexed by position.  The blocking waits of the source (`wait_for_on`,
`request::wait`) are modelled as enabling conditions of the
corresponding steps; asynchronous I/O completions are their own steps.
Every step emits a list of observable events so that temporal claims
can be stated over run traces. -/

/-- One outstanding or retired read request: the consumption-sequence
position it reads, and whether the I/O has completed. -/
structure Req where
  pos : Nat
  done : Bool
deriving Repr, DecidableEq

/-- Observable events of an engine run. -/
inductive Event where
  | issueRead (pos slot : Nat)
  | callback (pos : Nat)
  | signalOn (pos : Nat)
  | deliver (pos slot : Nat)
deriving Repr, DecidableEq

/-- State of a `block_prefetcher`. -/
structure BlockPrefetcher where
  seq_length : Nat
  prefetch_seq : List Nat
  do_after_fetch : Bool
  nreadblocks : Nat
  nextread : Nat
  nextconsume : Nat
  read_reqs : List (Option Req)
  completed : List Bool
  pref_buffer : List (Option Nat)
deriving Repr, DecidableEq

/-- Lookup of `read_reqs[slot]` (null pointer modelled as `none`). -/
def reqAt (e : BlockPrefetcher) (slot : Nat) : Option Req :=
  e.read_reqs.getD slot none

/-- Query `completed[pos].is_on()`. -/
def completedAt (e : BlockPrefetcher) (pos : Nat) : Bool :=
  e.completed.getD pos false

/-- Lookup of `pref_buffer[pos]` (the `-1` sentinel modelled as `none`). -/
def prefAt (e : BlockPrefetcher) (pos : Nat) : Option Nat :=
  e.pref_buffer.getD pos none

/-- Issue an asynchronous read of the block at consumption position
`pos` into buffer `slot` (`read_reqs[slot] = read_buffers[slot].read(...)`
together with `pref_buffer[pos] = slot`). -/
def issueInto (e : BlockPrefetcher) (slot pos : Nat) : BlockPrefetcher :=
  { e with
    read_reqs := e.read_reqs.set slot (some ⟨pos, false⟩)
    pref_buffer := e.pref_buffer.set pos (some slot) }

/-- Constructor `block_prefetcher::block_prefetcher`: record the sequence and
schedule, set `nextread = nreadblocks = min(_prefetch_buf_size,
seq_length)` and `nextconsume = 0`, allocate the arrays (the map filled
with the unassigned sentinel, the switches all off), and for each
`i < nreadblocks` issue a read of the block at consumption position
`prefetch_seq[i]` into buffer `i`, recording `pref_buffer[prefetch_seq[i]]
= i`. -/
def block_prefetcher_init (seqLen : Nat) (pref_seq : List Nat)
    (buf_size : Nat) (cb : Bool) : BlockPrefetcher :=
  (List.range (min buf_size seqLen)).foldl
    (fun e i => issueInto e i (pref_seq.getD i 0))
    { seq_length := seqLen
      prefetch_seq := pref_seq
      do_after_fetch := cb
      nreadblocks := min buf_size seqLen
      nextread := min buf_size seqLen
      nextconsume := 0
      read_reqs := List.replicate (min buf_size seqLen) none
      completed := List.replicate seqLen false
      pref_buffer := List.replicate seqLen none }

/-- The constructor behind its `assert(seq_length > 0)` and
`assert(_prefetch_buf_size > 0)` contract checks: an assertion failure
is a fatal error, not a recoverable result. -/
def block_prefetcher_checked (seqLen : Nat) (pref_seq : List Nat)
    (buf_size : Nat) (cb : Bool) : Except String BlockPrefetcher :=
  if 0 < seqLen then
    if 0 < buf_size then
      Except.ok (block_prefetcher_init seqLen pref_seq buf_size cb)
    else Except.error "assertion failed: _prefetch_buf_size > 0"
  else Except.error "assertion failed: seq_length > 0"

/-- Completion handler `set_switch_handler::operator()`: on I/O completion, invoke the
user callback first (when present) and only then turn the bound switch
on, as the emitted event order records. -/
def set_switch_handler (on_complete : Bool) (pos : Nat) : List Event :=
  (if on_complete then [Event.callback pos] else []) ++ [Event.signalOn pos]

/-- Delivery of the I/O completion for the request held in `slot`: runs
the `set_switch_handler` bound at issue time (callback, then switch on)
and marks the request as done.  A slot with no pending undone request
completes nothing. -/
def ioComplete (e : BlockPrefetcher) (slot : Nat) :
    BlockPrefetcher × List Event :=
  match e.read_reqs.getD slot none with
  | some r =>
    if r.done then (e, [])
    else
      ({ e with
          read_reqs := e.read_reqs.set slot (some ⟨r.pos, true⟩)
          completed := e.completed.set r.pos true },
        set_switch_handler e.do_after_fetch r.pos)
  | none => (e, [])

/-- Lookup phase of `block_prefetcher::wait(iblock)` after its blocking wait on
`completed[iblock]`: look up `pref_buffer[iblock]` and return that
buffer slot. -/
def wait_buffer (e : BlockPrefetcher) (iblock : Nat) : Nat :=
  (prefAt e iblock).getD 0

/-- Call to `pull_block()` once its wait is enabled: deliver the buffer of
position `nextconsume` and increment `nextconsume`.  Returns the new
state, the delivered slot, and the emitted events. -/
def pull_block (e : BlockPrefetcher) : BlockPrefetcher × Nat × List Event :=
  ({ e with nextconsume := e.nextconsume + 1 },
    wait_buffer e e.nextconsume,
    [Event.deliver e.nextconsume (wait_buffer e e.nextconsume)])

/-- Predicate: `pull_block` is enabled when there is a position left to consume and
the wait on `completed[nextconsume]` would return. -/
def canPull (e : BlockPrefetcher) : Bool :=
  decide (e.nextconsume < e.seq_length) && completedAt e e.nextconsume

/-- First half of `block_consumed(buffer)` (after the wait on the freed
slot's request): null the slot's request handle and, if `nextread <
seq_length`, issue a new read for position `prefetch_seq[nextread]` into
the freed slot, record the map entry, and advance `nextread`. -/
def consumeRecycle (e : BlockPrefetcher) (ibuffer : Nat) :
    BlockPrefetcher × List Event :=
  let e1 := { e with read_reqs := e.read_reqs.set ibuffer none }
  if e1.nextread < e1.seq_length then
    let next_2_prefetch := e1.prefetch_seq.getD e1.nextread 0
    (issueInto { e1 with nextread := e1.nextread + 1 } ibuffer
        next_2_prefetch,
      [Event.issueRead next_2_prefetch ibuffer])
  else (e1, [])

/-- I/O completions delivered while `block_consumed` is blocked in its
wait for `completed[nextconsume]`. -/
def applyCompletes : BlockPrefetcher → List Nat → BlockPrefetcher × List Event
  | e, [] => (e, [])
  | e, slot :: rest =>
    let q := ioComplete e slot
    let r := applyCompletes q.1 rest
    (r.1, q.2 ++ r.2)

/-- The engine state at the point `block_consumed` checks
`nextconsume >= seq_length`: after the recycle-and-reissue phase and the
completions delivered during the call. -/
def consumeMid (e : BlockPrefetcher) (ibuffer : Nat) (inner : List Nat) :
    BlockPrefetcher :=
  (applyCompletes (consumeRecycle e ibuffer).1 inner).1

/-- Result of one `block_consumed` call. -/
structure ConsumeResult where
  engine : BlockPrefetcher
  ret : Bool
  buffer : Option Nat
  events : List Event
deriving Repr, DecidableEq

/-- Call to `block_consumed(buffer)` as one whole.  `ibuffer` is the slot index
of the returned buffer (`buffer - read_buffers`); `inner` lists the
completions delivered while the call is blocked in its final wait.
After recycling the slot (and possible reissue), if `nextconsume >=
seq_length` the call returns `false`; otherwise it waits on
`completed[nextconsume]`, sets the out-parameter to that position's
buffer, advances `nextconsume` and returns `true`. -/
def block_consumed (e : BlockPrefetcher) (ibuffer : Nat)
    (inner : List Nat) : ConsumeResult :=
  let p1 := consumeRecycle e ibuffer
  let p2 := applyCompletes p1.1 inner
  let e2 := p2.1
  let evs := p1.2 ++ p2.2
  if e2.seq_length ≤ e2.nextconsume then
    ⟨e2, false, none, evs⟩
  else
    ⟨{ e2 with nextconsume := e2.nextconsume + 1 }, true,
      some (wait_buffer e2 e2.nextconsume),
      evs ++ [Event.deliver e2.nextconsume (wait_buffer e2 e2.nextconsume)]⟩

/-- The wait `read_reqs[ibuffer]->wait()` at the head of
`block_consumed` would return: the slot's request handle is null or its
I/O has completed. -/
def reqRetired (e : BlockPrefetcher) (ibuffer : Nat) : Bool :=
  match reqAt e ibuffer with
  | some r => r.done
  | none => true

/-- Predicate: `block_consumed` is enabled for `ibuffer` and `inner` when the
argument is a real buffer slot, the slot's request has retired (the
unconditional wait-before-reuse), and the final wait on
`completed[nextconsume]` returns (vacuously so when the sequence is
exhausted). -/
def canConsume (e : BlockPrefetcher) (ibuffer : Nat)
    (inner : List Nat) : Bool :=
  decide (ibuffer < e.nreadblocks) && reqRetired e ibuffer &&
    (!(decide ((consumeMid e ibuffer inner).nextconsume
        < (consumeMid e ibuffer inner).seq_length)) ||
      completedAt (consumeMid e ibuffer inner)
        (consumeMid e ibuffer inner).nextconsume)

/-- Query `block_prefetcher::empty()`. -/
def prefetcher_empty (e : BlockPrefetcher) : Bool :=
  decide (e.seq_length ≤ e.nextconsume)

/-- A run of the engine: any interleaving of out-of-band I/O
completions, `pull_block` calls and `block_consumed` calls, each enabled
when taken, starting from a given state. -/
inductive Run : BlockPrefetcher → BlockPrefetcher → List Event → Prop where
  | refl (e : BlockPrefetcher) : Run e e []
  | complete (a b : BlockPrefetcher) (tr : List Event) (slot : Nat)
      (h : Run a b tr) :
      Run a (ioComplete b slot).1 (tr ++ (ioComplete b slot).2)
  | pull (a b : BlockPrefetcher) (tr : List Event)
      (h : Run a b tr) (hc : canPull b = true) :
      Run a (pull_block b).1 (tr ++ (pull_block b).2.2)
  | consume (a b : BlockPrefetcher) (tr : List Event) (ibuffer : Nat)
      (inner : List Nat) (h : Run a b tr)
      (hc : canConsume b ibuffer inner = true) :
      Run a (block_consumed b ibuffer inner).engine
        (tr ++ (block_consumed b ibuffer inner).events)

/-- The positions of the delivered blocks, in delivery order. -/
def deliverPositions (tr : List Event) : List Nat :=
  tr.filterMap fun ev =>
    match ev with
    | Event.deliver p _ => some p
    | _ => none

/-- A well-formed prefetch schedule for sequence length `N`: a
permutation of the positions `0, ..., N-1`. -/
def SchedOK (N : Nat) (sched : List Nat) : Prop :=
  sched.length = N ∧ sched.Nodup ∧ ∀ x ∈ sched, x < N

instance (N : Nat) (sched : List Nat) : Decidable (SchedOK N sched) := by
  unfold SchedOK
  infer_instance

/-- Position `pos` has been issued by the time `nextread = m`:
it occurs in the first `m` schedule entries. -/
def issuedBelow (sched : List Nat) (m pos : Nat) : Prop :=
  ∃ i, i < m ∧ sched.getD i 0 = pos

/-! ### Construction characterization -/

theorem replicate_getD {α : Type} (n i : Nat) (a : α) :
    (List.replicate n a).getD i a = a := by
  by_cases h : i < n
  · rw [List.getD_eq_getElem _ _ (by simpa using h)]
    simp
  · rw [List.getD_eq_default]
    simpa using h

theorem sched_getD_lt {N : Nat} {sched : List Nat} (hs : SchedOK N sched)
    {i : Nat} (hi : i < N) : sched.getD i 0 < N := by
  obtain ⟨hlen, _, hbound⟩ := hs
  have hi2 : i < sched.length := by omega
  rw [List.getD_eq_getElem _ _ hi2]
  exact hbound _ (List.getElem_mem hi2)

theorem sched_getD_inj {N : Nat} {sched : List Nat} (hs : SchedOK N sched)
    {i j : Nat} (hi : i < N) (hj : j < N)
    (h : sched.getD i 0 = sched.getD j 0) : i = j := by
  obtain ⟨hlen, hnd, _⟩ := hs
  have hi2 : i < sched.length := by omega
  have hj2 : j < sched.length := by omega
  rw [List.getD_eq_getElem _ _ hi2, List.getD_eq_getElem _ _ hj2] at h
  exact (List.Nodup.getElem_inj_iff hnd).mp h

/-- What the construction loop has established after issuing the first
`k` reads. -/
structure InitFoldSpec (N B : Nat) (sched : List Nat) (cb : Bool)
    (k : Nat) (ek : BlockPrefetcher) : Prop where
  seq_len : ek.seq_length = N
  pseq : ek.prefetch_seq = sched
  cbEq : ek.do_after_fetch = cb
  nrb : ek.nreadblocks = min B N
  nr : ek.nextread = min B N
  nc : ek.nextconsume = 0
  comp : ek.completed = List.replicate N false
  len_reqs : ek.read_reqs.length = min B N
  len_pref : ek.pref_buffer.length = N
  req_lt : ∀ i, i < k → reqAt ek i = some ⟨sched.getD i 0, false⟩
  req_ge : ∀ i, k ≤ i → reqAt ek i = none
  pref_hit : ∀ i, i < k → prefAt ek (sched.getD i 0) = some i
  pref_miss : ∀ p, (∀ i, i < k → sched.getD i 0 ≠ p) → prefAt ek p = none

theorem init_fold_spec (N B : Nat) (sched : List Nat) (cb : Bool)
    (hs : SchedOK N sched) :
    ∀ k, k ≤ min B N →
    InitFoldSpec N B sched cb k
      ((List.range k).foldl (fun e i => issueInto e i (sched.getD i 0))
        { seq_length := N
          prefetch_seq := sched
          do_after_fetch := cb
          nreadblocks := min B N
          nextread := min B N
          nextconsume := 0
          read_reqs := List.replicate (min B N) none
          completed := List.replicate N false
          pref_buffer := List.replicate N none }) := by
  intro k
  induction k with
  | zero =>
    intro _
    refine ⟨rfl, rfl, rfl, rfl, rfl, rfl, rfl, by simp, by simp,
      ?_, ?_, ?_, ?_⟩
    · intro i hi; omega
    · intro i _; exact replicate_getD _ _ _
    · intro i hi; omega
    · intro p _; exact replicate_getD _ _ _
  | succ k ih =>
    intro hk
    have hk2 : k ≤ min B N := by omega
    have spec := ih hk2
    have hkN : k < N := by omega
    have hpos : sched.getD k 0 < N := sched_getD_lt hs hkN
    rw [List.range_succ, List.foldl_append]
    set ek := (List.range k).foldl
      (fun e i => issueInto e i (sched.getD i 0))
      { seq_length := N
        prefetch_seq := sched
        do_after_fetch := cb
        nreadblocks := min B N
        nextread := min B N
        nextconsume := 0
        read_reqs := List.replicate (min B N) none
        completed := List.replicate N false
        pref_buffer := List.replicate N none } with hek
    show InitFoldSpec N B sched cb (k + 1) (issueInto ek k (sched.getD k 0))
    refine ⟨spec.seq_len, spec.pseq, spec.cbEq, spec.nrb, spec.nr, spec.nc,
      spec.comp, by simp [issueInto, spec.len_reqs],
      by simp [issueInto, spec.len_pref], ?_, ?_, ?_, ?_⟩
    · intro i hi
      by_cases hik : i = k
      · subst hik
        show (ek.read_reqs.set i (some ⟨sched.getD i 0, false⟩)).getD i none
          = _
        rw [getD_set_self _ _ _ _ (by rw [spec.len_reqs]; omega)]
      · have : i < k := by omega
        show (ek.read_reqs.set k (some ⟨sched.getD k 0, false⟩)).getD i none
          = _
        rw [getD_set_other _ _ _ _ _ (by omega)]
        exact spec.req_lt i this
    · intro i hi
      show (ek.read_reqs.set k (some ⟨sched.getD k 0, false⟩)).getD i none
        = none
      rw [getD_set_other _ _ _ _ _ (by omega)]
      exact spec.req_ge i (by omega)
    · intro i hi
      by_cases hik : i = k
      · subst hik
        show (ek.pref_buffer.set (sched.getD i 0) (some i)).getD
          (sched.getD i 0) none = some i
        rw [getD_set_self _ _ _ _ (by rw [spec.len_pref]; omega)]
      · have hik2 : i < k := by omega
        show (ek.pref_buffer.set (sched.getD k 0) (some k)).getD
          (sched.getD i 0) none = some i
        rw [getD_set_other _ _ _ _ _ ?hne]
        · exact spec.pref_hit i hik2
        case hne =>
          intro hcontra
          exact hik (sched_getD_inj hs hkN (by omega) hcontra).symm
    · intro p hp
      show (ek.pref_buffer.set (sched.getD k 0) (some k)).getD p none = none
      rw [getD_set_other _ _ _ _ _ (hp k (by omega))]
      exact spec.pref_miss p (fun i hi => hp i (by omega))

/-- The construction loop result, packaged for the initial state of the
engine. -/
theorem init_spec (N B : Nat) (sched : List Nat) (cb : Bool)
    (hs : SchedOK N sched) :
    InitFoldSpec N B sched cb (min B N)
      (block_prefetcher_init N sched B cb) :=
  init_fold_spec N B sched cb hs (min B N) (Nat.le_refl _)

/-- C2: construction with sequence length `N > 0` and buffer count
`B > 0` sets `nextread = nreadblocks = min(B,N)` and `nextconsume = 0`,
leaves every completion signal off, issues for each `i < min(B,N)` an
asynchronous read of consumption position `prefetch_seq[i]` into buffer
slot `i` (whose completion will switch on `completed[prefetch_seq[i]]`),
records `pref_buffer[prefetch_seq[i]] = i`, and assigns no other map
entry. -/
theorem block_prefetcher_construction (N B : Nat) (sched : List Nat)
    (cb : Bool) (hN : 0 < N) (hB : 0 < B) (hs : SchedOK N sched) :
    (block_prefetcher_init N sched B cb).nextread = min B N ∧
    (block_prefetcher_init N sched B cb).nextconsume = 0 ∧
    (block_prefetcher_init N sched B cb).nreadblocks = min B N ∧
    (block_prefetcher_init N sched B cb).completed
      = List.replicate N false ∧
    (∀ i, i < min B N →
      reqAt (block_prefetcher_init N sched B cb) i
          = some ⟨sched.getD i 0, false⟩ ∧
      prefAt (block_prefetcher_init N sched B cb) (sched.getD i 0)
          = some i) ∧
    (∀ p, (∀ i, i < min B N → sched.getD i 0 ≠ p) →
      prefAt (block_prefetcher_init N sched B cb) p = none) := by
  have spec := init_spec N B sched cb hs
  exact ⟨spec.nr, spec.nc, spec.nrb, spec.comp,
    fun i hi => ⟨spec.req_lt i hi, spec.pref_hit i hi⟩,
    spec.pref_miss⟩

/-- Concrete instance of `block_prefetcher_construction` with `N = 3`,
`B = 2`, schedule `[2, 0, 1]`. -/
theorem block_prefetcher_construction_witness :
    (block_prefetcher_init 3 [2, 0, 1] 2 false).nextread = min 2 3 ∧
    (block_prefetcher_init 3 [2, 0, 1] 2 false).nextconsume = 0 ∧
    (block_prefetcher_init 3 [2, 0, 1] 2 false).nreadblocks = min 2 3 ∧
    (block_prefetcher_init 3 [2, 0, 1] 2 false).completed
      = List.replicate 3 false ∧
    (∀ i, i < min 2 3 →
      reqAt (block_prefetcher_init 3 [2, 0, 1] 2 false) i
          = some ⟨[2, 0, 1].getD i 0, false⟩ ∧
      prefAt (block_prefetcher_init 3 [2, 0, 1] 2 false)
          ([2, 0, 1].getD i 0) = some i) ∧
    (∀ p, (∀ i, i < min 2 3 → [2, 0, 1].getD i 0 ≠ p) →
      prefAt (block_prefetcher_init 3 [2, 0, 1] 2 false) p = none) :=
  block_prefetcher_construction 3 2 [2, 0, 1] false
    (by decide) (by decide) (by decide)

/-- C8: the constructor fails (by assertion, a fatal contract check
rather than a recoverable error value) exactly when the sequence length
or the requested buffer count is zero. -/
theorem block_prefetcher_zero_args_fail (N B : Nat) (sched : List Nat)
    (cb : Bool) :
    (N = 0 ∨ B = 0) ↔
      ∃ msg, block_prefetcher_checked N sched B cb = Except.error msg := by
  unfold block_prefetcher_checked
  by_cases h1 : 0 < N
  · by_cases h2 : 0 < B
    · simp [h1, h2]
      omega
    · simp [h1, h2]
      omega
  · simp [h1]
    omega

/-! ### Trace helpers -/

theorem mem_exists_getElem {β : Type} (l : List β) (a : β) (h : a ∈ l) :
    ∃ i : Nat, i < l.length ∧ l[i]? = some a := by
  obtain ⟨i, hlt, he⟩ := List.mem_iff_getElem.mp h
  exact ⟨i, hlt, by rw [List.getElem?_eq_getElem hlt, he]⟩

theorem getElem_mem_of_some {β : Type} (l : List β) (i : Nat) (a : β)
    (h : l[i]? = some a) : a ∈ l := by
  obtain ⟨hlt, he⟩ := List.getElem?_eq_some.mp h
  exact he ▸ List.getElem_mem hlt

theorem getD_some_lt {β : Type} (l : List (Option β)) (i : Nat) (x : β)
    (h : l.getD i none = some x) : i < l.length := by
  by_contra hc
  rw [List.getD_eq_default] at h
  · exact Option.noConfusion h
  · omega

theorem deliverPositions_append (tr l : List Event) :
    deliverPositions (tr ++ l)
      = deliverPositions tr ++ deliverPositions l :=
  List.filterMap_append tr l _

theorem issuedBelow_mono {sched : List Nat} {m m' p : Nat}
    (h : m ≤ m') (hp : issuedBelow sched m p) : issuedBelow sched m' p := by
  obtain ⟨i, hi, he⟩ := hp
  exact ⟨i, by omega, he⟩

theorem issuedBelow_lt {N : Nat} {sched : List Nat} (hs : SchedOK N sched)
    {m p : Nat} (hm : m ≤ N) (hp : issuedBelow sched m p) : p < N := by
  obtain ⟨i, hi, he⟩ := hp
  exact he ▸ sched_getD_lt hs (by omega)

/-! ### The run invariant -/

/-- Invariant tying a reachable engine state to the event trace that
produced it, for an engine constructed with sequence length `N`,
schedule `sched` (a permutation of `[0, N)`), requested buffer count
`B` and callback presence `cb`. -/
structure Inv (N B : Nat) (sched : List Nat) (cb : Bool)
    (e : BlockPrefetcher) (tr : List Event) : Prop where
  seq_len : e.seq_length = N
  pseq : e.prefetch_seq = sched
  cbEq : e.do_after_fetch = cb
  nrb : e.nreadblocks = min B N
  len_reqs : e.read_reqs.length = min B N
  len_comp : e.completed.length = N
  len_pref : e.pref_buffer.length = N
  nr_lb : min B N ≤ e.nextread
  nr_ub : e.nextread ≤ N
  nc_ub : e.nextconsume ≤ N
  req_issued : ∀ slot r, reqAt e slot = some r →
    issuedBelow sched e.nextread r.pos
  comp_issued : ∀ p, completedAt e p = true →
    issuedBelow sched e.nextread p
  pref_issued : ∀ p s, prefAt e p = some s →
    issuedBelow sched e.nextread p ∧ s < min B N
  issued_pref : ∀ p, issuedBelow sched e.nextread p →
    ∃ s, prefAt e p = some s
  req_not_done : ∀ slot r, reqAt e slot = some r → r.done = false →
    completedAt e r.pos = false
  req_inj : ∀ s1 s2 r1 r2, reqAt e s1 = some r1 → reqAt e s2 = some r2 →
    r1.pos = r2.pos → s1 = s2
  cb_iff : cb = true → ∀ p,
    (Event.callback p ∈ tr ↔ completedAt e p = true)
  cb_count : ∀ p, tr.count (Event.callback p) ≤ 1
  sig_iff : ∀ p, (Event.signalOn p ∈ tr ↔ completedAt e p = true)
  deliv_order : deliverPositions tr = List.range e.nextconsume
  deliv_pref : ∀ p s, Event.deliver p s ∈ tr → prefAt e p = some s
  deliv_comp : ∀ p s, Event.deliver p s ∈ tr → completedAt e p = true
  deliv_after : ∀ i : Nat, ∀ p s, tr[i]? = some (Event.deliver p s) →
    (cb = true → ∃ k : Nat, k < i ∧ tr[k]? = some (Event.callback p)) ∧
    (∃ j : Nat, j < i ∧ tr[j]? = some (Event.signalOn p))

/-- The invariant holds at construction with the empty trace. -/
theorem inv_init (N B : Nat) (sched : List Nat) (cb : Bool)
    (hs : SchedOK N sched) :
    Inv N B sched cb (block_prefetcher_init N sched B cb) [] := by
  have spec := init_spec N B sched cb hs
  have hcompAt : ∀ p, completedAt (block_prefetcher_init N sched B cb) p
      = false := by
    intro p
    unfold completedAt
    rw [spec.comp]
    exact replicate_getD _ _ _
  refine ⟨spec.seq_len, spec.pseq, spec.cbEq, spec.nrb, spec.len_reqs,
    by rw [spec.comp]; simp, spec.len_pref, by rw [spec.nr],
    by rw [spec.nr]; omega, by rw [spec.nc]; omega, ?_, ?_, ?_, ?_, ?_, ?_,
    ?_, ?_, ?_, ?_, ?_, ?_, ?_⟩
  · -- req_issued
    intro slot r hr
    rw [spec.nr]
    by_cases hlt : slot < min B N
    · rw [spec.req_lt slot hlt] at hr
      obtain rfl := Option.some_injective _ hr
      exact ⟨slot, hlt, rfl⟩
    · rw [spec.req_ge slot (by omega)] at hr
      exact Option.noConfusion hr
  · -- comp_issued
    intro p hp
    rw [hcompAt] at hp
    exact Bool.noConfusion hp
  · -- pref_issued
    intro p s hp
    rw [spec.nr]
    by_cases hex : ∃ i, i < min B N ∧ sched.getD i 0 = p
    · obtain ⟨i, hi, he⟩ := hex
      have := spec.pref_hit i hi
      rw [he] at this
      rw [this] at hp
      obtain rfl := Option.some_injective _ hp
      exact ⟨⟨i, hi, he⟩, hi⟩
    · rw [spec.pref_miss p ?_] at hp
      · exact Option.noConfusion hp
      · intro i hi he
        exact hex ⟨i, hi, he⟩
  · -- issued_pref
    intro p hp
    rw [spec.nr] at hp
    obtain ⟨i, hi, he⟩ := hp
    exact ⟨i, he ▸ spec.pref_hit i hi⟩
  · -- req_not_done
    intro slot r _ _
    exact hcompAt _
  · -- req_inj
    intro s1 s2 r1 r2 h1 h2 hpos
    have hs1 : s1 < min B N := by
      by_contra hc
      rw [spec.req_ge s1 (by omega)] at h1
      exact Option.noConfusion h1
    have hs2 : s2 < min B N := by
      by_contra hc
      rw [spec.req_ge s2 (by omega)] at h2
      exact Option.noConfusion h2
    rw [spec.req_lt s1 hs1] at h1
    rw [spec.req_lt s2 hs2] at h2
    obtain rfl := Option.some_injective _ h1
    obtain rfl := Option.some_injective _ h2
    simp only at hpos
    exact sched_getD_inj hs (by omega) (by omega) hpos
  · -- cb_iff
    intro _ p
    rw [hcompAt]
    simp
  · -- cb_count
    intro p
    simp
  · -- sig_iff
    intro p
    rw [hcompAt]
    simp
  · -- deliv_order
    rw [spec.nc]
    rfl
  · -- deliv_pref
    intro p s hp
    exact absurd hp (List.not_mem_nil _)
  · -- deliv_comp
    intro p s hp
    exact absurd hp (List.not_mem_nil _)
  · -- deliv_after
    intro i p s hp
    simp at hp

/-- The invariant is preserved by an asynchronous completion step. -/
theorem inv_ioComplete (N B : Nat) (sched : List Nat) (cb : Bool)
    (e : BlockPrefetcher) (tr : List Event) (hs : SchedOK N sched)
    (hinv : Inv N B sched cb e tr) (slot : Nat) :
    Inv N B sched cb (ioComplete e slot).1 (tr ++ (ioComplete e slot).2) := by
  unfold ioComplete
  split
  case h_2 => simpa using hinv
  case h_1 r heq =>
  split
  case isTrue => simpa using hinv
  case isFalse hdone =>
  obtain ⟨pos, d⟩ := r
  have hd : d = false := by simpa using hdone
  subst hd
  have hreq : e.read_reqs.getD slot none = some ⟨pos, false⟩ := heq
  dsimp only
  -- the request in `slot` for position `pos` completes now
  have hslot_lt : slot < e.read_reqs.length := getD_some_lt _ _ _ hreq
  have hiss : issuedBelow sched e.nextread pos :=
    hinv.req_issued slot ⟨pos, false⟩ hreq
  have hposN : pos < N := issuedBelow_lt hs hinv.nr_ub hiss
  have hcompF : completedAt e pos = false :=
    hinv.req_not_done slot ⟨pos, false⟩ hreq rfl
  have hcomp_new : ∀ p, completedAt
      { e with
        read_reqs := e.read_reqs.set slot (some ⟨pos, true⟩)
        completed := e.completed.set pos true } p
      = if p = pos then true else completedAt e p := by
    intro p
    show (e.completed.set pos true).getD p false = _
    by_cases hp : p = pos
    · subst hp
      rw [if_pos rfl, getD_set_self _ _ _ _ (by rw [hinv.len_comp]; omega)]
    · rw [if_neg hp, getD_set_other _ _ _ _ _ (fun hc => hp hc.symm)]
      rfl
  have hreq_new : ∀ s, reqAt
      { e with
        read_reqs := e.read_reqs.set slot (some ⟨pos, true⟩)
        completed := e.completed.set pos true } s
      = if s = slot then some ⟨pos, true⟩ else reqAt e s := by
    intro s
    show (e.read_reqs.set slot (some ⟨pos, true⟩)).getD s none = _
    by_cases hp : s = slot
    · subst hp
      rw [if_pos rfl, getD_set_self _ _ _ _ hslot_lt]
    · rw [if_neg hp, getD_set_other _ _ _ _ _ (fun hc => hp hc.symm)]
      rfl
  have hmono : ∀ p, completedAt e p = true → completedAt
      { e with
        read_reqs := e.read_reqs.set slot (some ⟨pos, true⟩)
        completed := e.completed.set pos true } p = true := by
    intro p hp
    rw [hcomp_new]
    by_cases h : p = pos <;> simp [h, hp]
  have hevs_cb : ∀ p, Event.callback p ∈ set_switch_handler e.do_after_fetch pos
      ↔ (e.do_after_fetch = true ∧ p = pos) := by
    intro p
    unfold set_switch_handler
    rcases e.do_after_fetch with _ | _ <;> simp
  have hevs_sig : ∀ p, Event.signalOn p ∈ set_switch_handler e.do_after_fetch pos
      ↔ p = pos := by
    intro p
    unfold set_switch_handler
    rcases e.do_after_fetch with _ | _ <;> simp
  have hevs_nodeliver : ∀ p s,
      Event.deliver p s ∉ set_switch_handler e.do_after_fetch pos := by
    intro p s
    unfold set_switch_handler
    rcases e.do_after_fetch with _ | _ <;> simp
  refine ⟨hinv.seq_len, hinv.pseq, hinv.cbEq,
    hinv.nrb, by simpa using hinv.len_reqs, by simpa using hinv.len_comp,
    hinv.len_pref, hinv.nr_lb, hinv.nr_ub, hinv.nc_ub,
    ?_, ?_, ?_, ?_, ?_, ?_, ?_, ?_, ?_, ?_, ?_, ?_, ?_⟩
  · -- req_issued
    intro s r h
    rw [hreq_new] at h
    by_cases hss : s = slot
    · rw [if_pos hss] at h
      obtain rfl := Option.some_injective _ h
      exact hiss
    · rw [if_neg hss] at h
      exact hinv.req_issued s r h
  · -- comp_issued
    intro p hp
    rw [hcomp_new] at hp
    by_cases hpp : p = pos
    · exact hpp ▸ hiss
    · rw [if_neg hpp] at hp
      exact hinv.comp_issued p hp
  · -- pref_issued
    intro p s hp
    exact hinv.pref_issued p s hp
  · -- issued_pref
    intro p hp
    exact hinv.issued_pref p hp
  · -- req_not_done
    intro s r h hd
    rw [hreq_new] at h
    by_cases hss : s = slot
    · rw [if_pos hss] at h
      obtain rfl := Option.some_injective _ h
      exact Bool.noConfusion hd
    · rw [if_neg hss] at h
      have hne : r.pos ≠ pos := by
        intro hc
        exact hss (hinv.req_inj s slot r ⟨pos, false⟩ h hreq hc)
      rw [hcomp_new, if_neg hne]
      exact hinv.req_not_done s r h hd
  · -- req_inj
    intro s1 s2 r1 r2 h1 h2 hp
    rw [hreq_new] at h1 h2
    have corr : ∀ s r, (if s = slot then some (⟨pos, true⟩ : Req)
        else reqAt e s) = some r →
        ∃ r0, reqAt e s = some r0 ∧ r0.pos = r.pos := by
      intro s r h
      by_cases hss : s = slot
      · rw [if_pos hss] at h
        obtain rfl := Option.some_injective _ h
        exact ⟨⟨pos, false⟩, hss ▸ hreq, rfl⟩
      · rw [if_neg hss] at h
        exact ⟨r, h, rfl⟩
    obtain ⟨q1, hq1, hq1p⟩ := corr s1 r1 h1
    obtain ⟨q2, hq2, hq2p⟩ := corr s2 r2 h2
    exact hinv.req_inj s1 s2 q1 q2 hq1 hq2 (by rw [hq1p, hq2p, hp])
  · -- cb_iff
    intro hcb p
    rw [List.mem_append, hevs_cb p, hcomp_new, hinv.cbEq, hcb]
    by_cases hpp : p = pos
    · subst hpp
      simp
    · rw [if_neg hpp]
      simp only [hpp, and_false, or_false]
      exact hinv.cb_iff hcb p
  · -- cb_count
    intro p
    rw [List.count_append]
    by_cases hpp : p = pos
    · subst hpp
      have hone : (set_switch_handler e.do_after_fetch p).count
          (Event.callback p) ≤ 1 := by
        unfold set_switch_handler
        rcases e.do_after_fetch with _ | _ <;> simp [List.count_cons]
      rcases hcb : cb with _ | _
      · have hzero : (set_switch_handler e.do_after_fetch p).count
            (Event.callback p) = 0 := by
          unfold set_switch_handler
          rw [hinv.cbEq, hcb]
          simp
        have := hinv.cb_count p
        omega
      · have hzero : tr.count (Event.callback p) = 0 := by
          rw [List.count_eq_zero]
          intro hmem
          have := (hinv.cb_iff hcb p).mp hmem
          rw [hcompF] at this
          exact Bool.noConfusion this
        omega
    · have hzero : (set_switch_handler e.do_after_fetch pos).count
          (Event.callback p) = 0 := by
        rw [List.count_eq_zero]
        intro hmem
        exact hpp ((hevs_cb p).mp hmem).2
      have := hinv.cb_count p
      omega
  · -- sig_iff
    intro p
    rw [List.mem_append, hevs_sig p, hcomp_new]
    by_cases hpp : p = pos
    · subst hpp
      simp
    · rw [if_neg hpp]
      simp only [hpp, or_false]
      exact hinv.sig_iff p
  · -- deliv_order
    rw [deliverPositions_append]
    have : deliverPositions (set_switch_handler e.do_after_fetch pos)
        = [] := by
      unfold set_switch_handler deliverPositions
      rcases e.do_after_fetch with _ | _ <;> simp
    rw [this, List.append_nil]
    exact hinv.deliv_order
  · -- deliv_pref
    intro p s hp
    rw [List.mem_append] at hp
    rcases hp with hp | hp
    · exact hinv.deliv_pref p s hp
    · exact absurd hp (hevs_nodeliver p s)
  · -- deliv_comp
    intro p s hp
    rw [List.mem_append] at hp
    rcases hp with hp | hp
    · exact hmono p (hinv.deliv_comp p s hp)
    · exact absurd hp (hevs_nodeliver p s)
  · -- deliv_after
    intro i p s hi
    by_cases hlen : i < tr.length
    · rw [List.getElem?_append_left hlen] at hi
      obtain ⟨hcbpart, j, hj, hjev⟩ := hinv.deliv_after i p s hi
      refine ⟨?_, j, hj, ?_⟩
      · intro hcb
        obtain ⟨k, hk, hkev⟩ := hcbpart hcb
        exact ⟨k, hk, by
          rw [List.getElem?_append_left (by omega)]
          exact hkev⟩
      · rw [List.getElem?_append_left (by omega)]
        exact hjev
    · exfalso
      rw [List.getElem?_append_right (by omega)] at hi
      have hmem := getElem_mem_of_some _ _ _ hi
      exact hevs_nodeliver p s hmem

/-- The invariant is preserved by delivering the block of position
`nextconsume` (the shared tail of `pull_block` and `block_consumed`). -/
theorem inv_deliver (N B : Nat) (sched : List Nat) (cb : Bool)
    (e : BlockPrefetcher) (tr : List Event) (hs : SchedOK N sched)
    (hinv : Inv N B sched cb e tr)
    (hlt : e.nextconsume < e.seq_length)
    (hcomp : completedAt e e.nextconsume = true) :
    Inv N B sched cb { e with nextconsume := e.nextconsume + 1 }
      (tr ++ [Event.deliver e.nextconsume (wait_buffer e e.nextconsume)]) := by
  have hltN : e.nextconsume < N := by rw [← hinv.seq_len]; exact hlt
  obtain ⟨s0, hs0⟩ := hinv.issued_pref e.nextconsume
    (hinv.comp_issued e.nextconsume hcomp)
  have hwb : prefAt e e.nextconsume = some (wait_buffer e e.nextconsume) := by
    unfold wait_buffer
    rw [hs0]
    rfl
  refine ⟨hinv.seq_len, hinv.pseq, hinv.cbEq, hinv.nrb, hinv.len_reqs,
    hinv.len_comp, hinv.len_pref, hinv.nr_lb, hinv.nr_ub, by
      show e.nextconsume + 1 ≤ N
      omega,
    hinv.req_issued, hinv.comp_issued, hinv.pref_issued, hinv.issued_pref,
    hinv.req_not_done, hinv.req_inj, ?_, ?_, ?_, ?_, ?_, ?_, ?_⟩
  · -- cb_iff
    intro hcb p
    have hne : Event.callback p
        ≠ Event.deliver e.nextconsume (wait_buffer e e.nextconsume) :=
      fun hcon => Event.noConfusion hcon
    simp only [List.mem_append, List.mem_singleton, hne, or_false]
    rw [hinv.cb_iff hcb p]
    exact Iff.rfl
  · -- cb_count
    intro p
    rw [List.count_append]
    have : ([Event.deliver e.nextconsume (wait_buffer e e.nextconsume)]).count
        (Event.callback p) = 0 := by
      simp
    have h2 := hinv.cb_count p
    omega
  · -- sig_iff
    intro p
    have hne : Event.signalOn p
        ≠ Event.deliver e.nextconsume (wait_buffer e e.nextconsume) :=
      fun hcon => Event.noConfusion hcon
    simp only [List.mem_append, List.mem_singleton, hne, or_false]
    rw [hinv.sig_iff p]
    exact Iff.rfl
  · -- deliv_order
    rw [deliverPositions_append, hinv.deliv_order]
    show List.range e.nextconsume ++ [e.nextconsume] = _
    rw [← List.range_succ]
  · -- deliv_pref
    intro p s hp
    rw [List.mem_append] at hp
    rcases hp with hp | hp
    · exact hinv.deliv_pref p s hp
    · simp only [List.mem_singleton] at hp
      injection hp with h1 h2
      subst h1
      subst h2
      exact hwb
  · -- deliv_comp
    intro p s hp
    rw [List.mem_append] at hp
    rcases hp with hp | hp
    · exact hinv.deliv_comp p s hp
    · simp only [List.mem_singleton] at hp
      injection hp with h1 h2
      subst h1
      subst h2
      exact hcomp
  · -- deliv_after
    intro i p s hi
    by_cases hlen : i < tr.length
    · rw [List.getElem?_append_left hlen] at hi
      obtain ⟨hcbpart, j, hj, hjev⟩ := hinv.deliv_after i p s hi
      refine ⟨?_, j, hj, ?_⟩
      · intro hcb
        obtain ⟨k, hk, hkev⟩ := hcbpart hcb
        exact ⟨k, hk, by
          rw [List.getElem?_append_left (by omega)]
          exact hkev⟩
      · rw [List.getElem?_append_left (by omega)]
        exact hjev
    · rw [List.getElem?_append_right (by omega)] at hi
      have hi0 : i - tr.length = 0 := by
        by_contra hc
        rw [List.getElem?_eq_none] at hi
        · exact Option.noConfusion hi
        · simp
          omega
      rw [hi0] at hi
      simp only [List.getElem?_cons_zero] at hi
      have h12 := Option.some_injective _ hi
      injection h12 with h1 h2
      subst h1
      subst h2
      refine ⟨?_, ?_⟩
      · intro hcb
        have hmem := (hinv.cb_iff hcb e.nextconsume).mpr hcomp
        obtain ⟨k, hk, hkev⟩ := mem_exists_getElem tr _ hmem
        exact ⟨k, by omega, by
          rw [List.getElem?_append_left hk]
          exact hkev⟩
      · have hmem := (hinv.sig_iff e.nextconsume).mpr hcomp
        obtain ⟨j, hj, hjev⟩ := mem_exists_getElem tr _ hmem
        exact ⟨j, by omega, by
          rw [List.getElem?_append_left hj]
          exact hjev⟩

/-- The invariant is preserved by `pull_block` when its wait is
enabled. -/
theorem inv_pull (N B : Nat) (sched : List Nat) (cb : Bool)
    (e : BlockPrefetcher) (tr : List Event) (hs : SchedOK N sched)
    (hinv : Inv N B sched cb e tr) (hc : canPull e = true) :
    Inv N B sched cb (pull_block e).1 (tr ++ (pull_block e).2.2) := by
  unfold canPull at hc
  rw [Bool.and_eq_true] at hc
  exact inv_deliver N B sched cb e tr hs hinv
    (of_decide_eq_true hc.1) hc.2

/-- The invariant is preserved by any batch of completions. -/
theorem inv_applyCompletes (N B : Nat) (sched : List Nat) (cb : Bool)
    (hs : SchedOK N sched) :
    ∀ (inner : List Nat) (e : BlockPrefetcher) (tr : List Event),
    Inv N B sched cb e tr →
    Inv N B sched cb (applyCompletes e inner).1
      (tr ++ (applyCompletes e inner).2) := by
  intro inner
  induction inner with
  | nil =>
    intro e tr h
    show Inv N B sched cb e (tr ++ [])
    rw [List.append_nil]
    exact h
  | cons slot rest ih =>
    intro e tr h
    have h1 := inv_ioComplete N B sched cb e tr hs h slot
    have h2 := ih (ioComplete e slot).1 (tr ++ (ioComplete e slot).2) h1
    show Inv N B sched cb
      (applyCompletes (ioComplete e slot).1 rest).1
      (tr ++ ((ioComplete e slot).2
        ++ (applyCompletes (ioComplete e slot).1 rest).2))
    rw [← List.append_assoc]
    exact h2

/-- The invariant is preserved by the recycle-and-reissue phase of
`block_consumed`. -/
theorem inv_recycle (N B : Nat) (sched : List Nat) (cb : Bool)
    (e : BlockPrefetcher) (tr : List Event) (hs : SchedOK N sched)
    (hinv : Inv N B sched cb e tr) (ibuffer : Nat)
    (hib : ibuffer < e.nreadblocks) :
    Inv N B sched cb (consumeRecycle e ibuffer).1
      (tr ++ (consumeRecycle e ibuffer).2) := by
  have hibK : ibuffer < min B N := by rw [← hinv.nrb]; exact hib
  have hiblen : ibuffer < e.read_reqs.length := by
    rw [hinv.len_reqs]; exact hibK
  unfold consumeRecycle
  dsimp only
  by_cases hnr : e.nextread < e.seq_length
  · rw [if_pos hnr]
    dsimp only
    have hnrN : e.nextread < N := by rw [← hinv.seq_len]; exact hnr
    have hpseq : e.prefetch_seq.getD e.nextread 0
        = sched.getD e.nextread 0 := by rw [hinv.pseq]
    rw [hpseq]
    have hposN : sched.getD e.nextread 0 < N := sched_getD_lt hs hnrN
    have hfresh : ¬ issuedBelow sched e.nextread (sched.getD e.nextread 0) := by
      rintro ⟨i, hi, he⟩
      have := sched_getD_inj hs (by omega) hnrN he
      omega
    have hcompF : completedAt e (sched.getD e.nextread 0) = false := by
      by_contra hc
      rw [Bool.not_eq_false] at hc
      exact hfresh (hinv.comp_issued _ hc)
    have hreq_new : ∀ s, reqAt
        (issueInto
          { e with
            read_reqs := e.read_reqs.set ibuffer none
            nextread := e.nextread + 1 }
          ibuffer (sched.getD e.nextread 0)) s
        = if s = ibuffer then some ⟨sched.getD e.nextread 0, false⟩
          else reqAt e s := by
      intro s
      show ((e.read_reqs.set ibuffer none).set ibuffer
        (some ⟨sched.getD e.nextread 0, false⟩)).getD s none = _
      by_cases hsi : s = ibuffer
      · subst hsi
        rw [if_pos rfl, getD_set_self _ _ _ _ (by simpa using hiblen)]
      · rw [if_neg hsi,
          getD_set_other _ _ _ _ _ (fun hcon => hsi hcon.symm),
          getD_set_other _ _ _ _ _ (fun hcon => hsi hcon.symm)]
        rfl
    have hpref_new : ∀ p, prefAt
        (issueInto
          { e with
            read_reqs := e.read_reqs.set ibuffer none
            nextread := e.nextread + 1 }
          ibuffer (sched.getD e.nextread 0)) p
        = if p = sched.getD e.nextread 0 then some ibuffer
          else prefAt e p := by
      intro p
      show (e.pref_buffer.set (sched.getD e.nextread 0) (some ibuffer)).getD
        p none = _
      by_cases hpp : p = sched.getD e.nextread 0
      · subst hpp
        rw [if_pos rfl,
          getD_set_self _ _ _ _ (by rw [hinv.len_pref]; omega)]
      · rw [if_neg hpp,
          getD_set_other _ _ _ _ _ (fun hcon => hpp hcon.symm)]
        rfl
    have hissued_new : ∀ p, issuedBelow sched (e.nextread + 1) p ↔
        issuedBelow sched e.nextread p ∨ p = sched.getD e.nextread 0 := by
      intro p
      constructor
      · rintro ⟨i, hi, he⟩
        by_cases hin : i = e.nextread
        · right; rw [← he, hin]
        · left; exact ⟨i, by omega, he⟩
      · rintro (⟨i, hi, he⟩ | rfl)
        · exact ⟨i, by omega, he⟩
        · exact ⟨e.nextread, by omega, rfl⟩
    refine ⟨hinv.seq_len, hinv.pseq, hinv.cbEq, hinv.nrb,
      by simp [issueInto, hinv.len_reqs], hinv.len_comp,
      by simp [issueInto, hinv.len_pref],
      by show min B N ≤ e.nextread + 1; have := hinv.nr_lb; omega,
      by show e.nextread + 1 ≤ N; omega,
      hinv.nc_ub, ?_, ?_, ?_, ?_, ?_, ?_, ?_, ?_, ?_, ?_, ?_, ?_, ?_⟩
    · -- req_issued
      intro s r h
      rw [hreq_new] at h
      show issuedBelow sched (e.nextread + 1) r.pos
      rw [hissued_new]
      by_cases hsi : s = ibuffer
      · rw [if_pos hsi] at h
        obtain rfl := Option.some_injective _ h
        right; rfl
      · rw [if_neg hsi] at h
        left; exact hinv.req_issued s r h
    · -- comp_issued
      intro p hp
      show issuedBelow sched (e.nextread + 1) p
      rw [hissued_new]
      left
      exact hinv.comp_issued p hp
    · -- pref_issued
      intro p s hp
      rw [hpref_new] at hp
      show issuedBelow sched (e.nextread + 1) p ∧ s < min B N
      rw [hissued_new]
      by_cases hpp : p = sched.getD e.nextread 0
      · rw [if_pos hpp] at hp
        obtain rfl := Option.some_injective _ hp
        exact ⟨Or.inr hpp, hibK⟩
      · rw [if_neg hpp] at hp
        obtain ⟨h1, h2⟩ := hinv.pref_issued p s hp
        exact ⟨Or.inl h1, h2⟩
    · -- issued_pref
      intro p hp
      have hp2 : issuedBelow sched (e.nextread + 1) p := hp
      rw [hissued_new] at hp2
      clear hp
      rename issuedBelow sched e.nextread p ∨ _ => hp
      rcases hp with hp | rfl
      · obtain ⟨s, hsp⟩ := hinv.issued_pref p hp
        refine ⟨s, ?_⟩
        rw [hpref_new, if_neg ?_]
        · exact hsp
        · intro hcon
          exact hfresh (hcon ▸ hp)
      · exact ⟨ibuffer, by rw [hpref_new, if_pos rfl]⟩
    · -- req_not_done
      intro s r h hd
      rw [hreq_new] at h
      by_cases hsi : s = ibuffer
      · rw [if_pos hsi] at h
        obtain rfl := Option.some_injective _ h
        show completedAt e _ = false
        exact hcompF
      · rw [if_neg hsi] at h
        show completedAt e r.pos = false
        exact hinv.req_not_done s r h hd
    · -- req_inj
      intro s1 s2 r1 r2 h1 h2 hp
      rw [hreq_new] at h1 h2
      by_cases hs1 : s1 = ibuffer <;> by_cases hs2 : s2 = ibuffer
      · omega
      · rw [if_pos hs1] at h1
        rw [if_neg hs2] at h2
        obtain rfl := Option.some_injective _ h1
        exfalso
        apply hfresh
        have hp2 : sched.getD e.nextread 0 = r2.pos := hp
        rw [hp2]
        exact hinv.req_issued s2 r2 h2
      · rw [if_neg hs1] at h1
        rw [if_pos hs2] at h2
        obtain rfl := Option.some_injective _ h2
        exfalso
        apply hfresh
        have hp2 : r1.pos = sched.getD e.nextread 0 := hp
        rw [← hp2]
        exact hinv.req_issued s1 r1 h1
      · rw [if_neg hs1] at h1
        rw [if_neg hs2] at h2
        exact hinv.req_inj s1 s2 r1 r2 h1 h2 hp
    · -- cb_iff
      intro hcb p
      have hne : Event.callback p
          ≠ Event.issueRead (sched.getD e.nextread 0) ibuffer :=
        fun hcon => Event.noConfusion hcon
      simp only [List.mem_append, List.mem_singleton, hne, or_false]
      rw [hinv.cb_iff hcb p]
      exact Iff.rfl
    · -- cb_count
      intro p
      rw [List.count_append]
      have hz : ([Event.issueRead (sched.getD e.nextread 0) ibuffer]).count
          (Event.callback p) = 0 := by simp
      have := hinv.cb_count p
      omega
    · -- sig_iff
      intro p
      have hne : Event.signalOn p
          ≠ Event.issueRead (sched.getD e.nextread 0) ibuffer :=
        fun hcon => Event.noConfusion hcon
      simp only [List.mem_append, List.mem_singleton, hne, or_false]
      rw [hinv.sig_iff p]
      exact Iff.rfl
    · -- deliv_order
      rw [deliverPositions_append]
      have hz : deliverPositions
          [Event.issueRead (sched.getD e.nextread 0) ibuffer] = [] := by
        unfold deliverPositions
        simp
      rw [hz, List.append_nil]
      exact hinv.deliv_order
    · -- deliv_pref
      intro p s hp
      rw [List.mem_append] at hp
      rcases hp with hp | hp
      · rw [hpref_new, if_neg ?_]
        · exact hinv.deliv_pref p s hp
        · intro hcon
          apply hfresh
          rw [← hcon]
          exact hinv.comp_issued p (hinv.deliv_comp p s hp)
      · simp only [List.mem_singleton] at hp
        exact absurd hp (fun hcon => Event.noConfusion hcon)
    · -- deliv_comp
      intro p s hp
      rw [List.mem_append] at hp
      rcases hp with hp | hp
      · exact hinv.deliv_comp p s hp
      · simp only [List.mem_singleton] at hp
        exact absurd hp (fun hcon => Event.noConfusion hcon)
    · -- deliv_after
      intro i p s hi
      by_cases hlen : i < tr.length
      · rw [List.getElem?_append_left hlen] at hi
        obtain ⟨hcbpart, j, hj, hjev⟩ := hinv.deliv_after i p s hi
        refine ⟨?_, j, hj, ?_⟩
        · intro hcb
          obtain ⟨k, hk, hkev⟩ := hcbpart hcb
          exact ⟨k, hk, by
            rw [List.getElem?_append_left (by omega)]
            exact hkev⟩
        · rw [List.getElem?_append_left (by omega)]
          exact hjev
      · exfalso
        rw [List.getElem?_append_right (by omega)] at hi
        have hmem := getElem_mem_of_some _ _ _ hi
        simp only [List.mem_singleton] at hmem
        exact Event.noConfusion hmem
  · rw [if_neg hnr]
    dsimp only
    have hreq_new : ∀ s, reqAt
        { e with read_reqs := e.read_reqs.set ibuffer none } s
        = if s = ibuffer then none else reqAt e s := by
      intro s
      show (e.read_reqs.set ibuffer none).getD s none = _
      by_cases hsi : s = ibuffer
      · subst hsi
        rw [if_pos rfl, getD_set_self _ _ _ _ hiblen]
      · rw [if_neg hsi,
          getD_set_other _ _ _ _ _ (fun hcon => hsi hcon.symm)]
        rfl
    refine ⟨hinv.seq_len, hinv.pseq, hinv.cbEq, hinv.nrb,
      by simpa using hinv.len_reqs, hinv.len_comp, hinv.len_pref,
      hinv.nr_lb, hinv.nr_ub, hinv.nc_ub, ?_, hinv.comp_issued,
      hinv.pref_issued, hinv.issued_pref, ?_, ?_, ?_, ?_, ?_, ?_, ?_,
      ?_, ?_⟩
    · -- req_issued
      intro s r h
      rw [hreq_new] at h
      by_cases hsi : s = ibuffer
      · rw [if_pos hsi] at h
        exact Option.noConfusion h
      · rw [if_neg hsi] at h
        exact hinv.req_issued s r h
    · -- req_not_done
      intro s r h hd
      rw [hreq_new] at h
      by_cases hsi : s = ibuffer
      · rw [if_pos hsi] at h
        exact Option.noConfusion h
      · rw [if_neg hsi] at h
        show completedAt e r.pos = false
        exact hinv.req_not_done s r h hd
    · -- req_inj
      intro s1 s2 r1 r2 h1 h2 hp
      rw [hreq_new] at h1 h2
      by_cases hs1 : s1 = ibuffer
      · rw [if_pos hs1] at h1
        exact Option.noConfusion h1
      · by_cases hs2 : s2 = ibuffer
        · rw [if_pos hs2] at h2
          exact Option.noConfusion h2
        · rw [if_neg hs1] at h1
          rw [if_neg hs2] at h2
          exact hinv.req_inj s1 s2 r1 r2 h1 h2 hp
    · -- cb_iff
      intro hcb p
      rw [List.append_nil]
      exact hinv.cb_iff hcb p
    · -- cb_count
      intro p
      rw [List.append_nil]
      exact hinv.cb_count p
    · -- sig_iff
      intro p
      rw [List.append_nil]
      exact hinv.sig_iff p
    · -- deliv_order
      rw [List.append_nil]
      exact hinv.deliv_order
    · -- deliv_pref
      intro p s hp
      rw [List.append_nil] at hp
      exact hinv.deliv_pref p s hp
    · -- deliv_comp
      intro p s hp
      rw [List.append_nil] at hp
      exact hinv.deliv_comp p s hp
    · -- deliv_after
      intro i p s hi
      simp only [List.append_nil] at hi ⊢
      exact hinv.deliv_after i p s hi

/-- The invariant is preserved by a whole `block_consumed` call. -/
theorem inv_consume (N B : Nat) (sched : List Nat) (cb : Bool)
    (e : BlockPrefetcher) (tr : List Event) (hs : SchedOK N sched)
    (hinv : Inv N B sched cb e tr) (ibuffer : Nat) (inner : List Nat)
    (hc : canConsume e ibuffer inner = true) :
    Inv N B sched cb (block_consumed e ibuffer inner).engine
      (tr ++ (block_consumed e ibuffer inner).events) := by
  unfold canConsume at hc
  rw [Bool.and_eq_true, Bool.and_eq_true] at hc
  obtain ⟨⟨hA, hB⟩, hC⟩ := hc
  have hib : ibuffer < e.nreadblocks := of_decide_eq_true hA
  have h1 := inv_recycle N B sched cb e tr hs hinv ibuffer hib
  have h2 := inv_applyCompletes N B sched cb hs inner _ _ h1
  unfold block_consumed
  dsimp only
  by_cases hend :
      (applyCompletes (consumeRecycle e ibuffer).1 inner).1.seq_length
      ≤ (applyCompletes (consumeRecycle e ibuffer).1 inner).1.nextconsume
  · rw [if_pos hend]
    dsimp only
    rw [← List.append_assoc]
    exact h2
  · rw [if_neg hend]
    dsimp only
    have hlt :
        (applyCompletes (consumeRecycle e ibuffer).1 inner).1.nextconsume
        < (applyCompletes (consumeRecycle e ibuffer).1 inner).1.seq_length :=
      by omega
    have hcompleted : completedAt
        (applyCompletes (consumeRecycle e ibuffer).1 inner).1
        (applyCompletes (consumeRecycle e ibuffer).1 inner).1.nextconsume
        = true := by
      have hC2 : (!(decide
          ((applyCompletes (consumeRecycle e ibuffer).1 inner).1.nextconsume
          < (applyCompletes
              (consumeRecycle e ibuffer).1 inner).1.seq_length))
          || completedAt (applyCompletes (consumeRecycle e ibuffer).1 inner).1
            (applyCompletes
              (consumeRecycle e ibuffer).1 inner).1.nextconsume) = true := hC
      rw [Bool.or_eq_true] at hC2
      rcases hC2 with h | h
      · rw [Bool.not_eq_true'] at h
        exact absurd hlt (of_decide_eq_false h)
      · exact h
    have h3 := inv_deliver N B sched cb _ _ hs h2 hlt hcompleted
    rw [← List.append_assoc, ← List.append_assoc]
    exact h3

/-- Every state reachable by a run from a freshly constructed engine
satisfies the invariant. -/
theorem inv_run (N B : Nat) (sched : List Nat) (cb : Bool)
    (hs : SchedOK N sched) (e : BlockPrefetcher) (tr : List Event)
    (hrun : Run (block_prefetcher_init N sched B cb) e tr) :
    Inv N B sched cb e tr := by
  induction hrun with
  | refl => exact inv_init N B sched cb hs
  | complete b2 tr3 slot h ih =>
    exact inv_ioComplete N B sched cb b2 tr3 hs ih slot
  | pull b2 tr3 h hc ih =>
    exact inv_pull N B sched cb b2 tr3 hs ih hc
  | consume b2 tr3 ibuffer inner h hc ih =>
    exact inv_consume N B sched cb b2 tr3 hs ih ibuffer inner hc

/-! ### Claim theorems for the prefetcher -/

/-- C1: in every run of a validly constructed engine, the delivered
blocks are exactly the consumption-sequence positions `0, ...,
nextconsume - 1` in order (whatever the schedule), each delivered buffer
is the slot `pref_buffer` maps its position to, and an enabled
`pull_block` returns the buffer of position `nextconsume` and increments
`nextconsume` by one. -/
theorem prefetcher_delivers_in_order (N B : Nat) (sched : List Nat)
    (cb : Bool) (hN : 0 < N) (hB : 0 < B) (hs : SchedOK N sched)
    (e : BlockPrefetcher) (tr : List Event)
    (hrun : Run (block_prefetcher_init N sched B cb) e tr) :
    deliverPositions tr = List.range e.nextconsume ∧
    (∀ p s, Event.deliver p s ∈ tr → prefAt e p = some s) ∧
    (canPull e = true →
      ∃ s, prefAt e e.nextconsume = some s ∧
        pull_block e = ({ e with nextconsume := e.nextconsume + 1 }, s,
          [Event.deliver e.nextconsume s])) := by
  have hinv := inv_run N B sched cb hs e tr hrun
  refine ⟨hinv.deliv_order, hinv.deliv_pref, ?_⟩
  intro hc
  unfold canPull at hc
  rw [Bool.and_eq_true] at hc
  obtain ⟨s, hsp⟩ := hinv.issued_pref e.nextconsume
    (hinv.comp_issued _ hc.2)
  refine ⟨s, hsp, ?_⟩
  unfold pull_block wait_buffer
  rw [hsp]
  rfl

/-- C4: in every reachable state there are exactly `min B N` buffer
slots, each holding at most one request handle, so neither the number of
valid handles nor the number of still-in-flight reads ever exceeds
`min B N`. -/
theorem prefetcher_inflight_bound (N B : Nat) (sched : List Nat)
    (cb : Bool) (hN : 0 < N) (hB : 0 < B) (hs : SchedOK N sched)
    (e : BlockPrefetcher) (tr : List Event)
    (hrun : Run (block_prefetcher_init N sched B cb) e tr) :
    e.read_reqs.length = min B N ∧
    (e.read_reqs.filter Option.isSome).length ≤ min B N ∧
    (e.read_reqs.filter fun o =>
      match o with
      | some r => !r.done
      | none => false).length ≤ min B N := by
  have hinv := inv_run N B sched cb hs e tr hrun
  refine ⟨hinv.len_reqs, ?_, ?_⟩
  · calc (e.read_reqs.filter Option.isSome).length
        ≤ e.read_reqs.length := List.length_filter_le _ _
      _ = min B N := hinv.len_reqs
  · calc (e.read_reqs.filter fun o =>
          match o with
          | some r => !r.done
          | none => false).length
        ≤ e.read_reqs.length := List.length_filter_le _ _
      _ = min B N := hinv.len_reqs

/-! ### A concrete run used as witness: N = 1, schedule [0], B = 1 -/

def wE0 : BlockPrefetcher := block_prefetcher_init 1 [0] 1 false

def wE1 : BlockPrefetcher := (ioComplete wE0 0).1

def wT1 : List Event := [] ++ (ioComplete wE0 0).2

def wE2 : BlockPrefetcher := (pull_block wE1).1

def wT2 : List Event := wT1 ++ (pull_block wE1).2.2

theorem wRun1 : Run wE0 wE1 wT1 := Run.complete wE0 wE0 [] 0 (Run.refl wE0)

theorem wRun2 : Run wE0 wE2 wT2 := Run.pull wE0 wE1 wT1 wRun1 (by decide)

/-- Concrete instance of `prefetcher_delivers_in_order` on a one-block
run. -/
theorem prefetcher_delivers_in_order_witness :
    deliverPositions wT2 = List.range wE2.nextconsume ∧
    (∀ p s, Event.deliver p s ∈ wT2 → prefAt wE2 p = some s) ∧
    (canPull wE2 = true →
      ∃ s, prefAt wE2 wE2.nextconsume = some s ∧
        pull_block wE2 = ({ wE2 with nextconsume := wE2.nextconsume + 1 },
          s, [Event.deliver wE2.nextconsume s])) :=
  prefetcher_delivers_in_order 1 1 [0] false (by decide) (by decide)
    (by decide) wE2 wT2 wRun2

/-- Concrete instance of `prefetcher_inflight_bound` on the same run. -/
theorem prefetcher_inflight_bound_witness :
    wE2.read_reqs.length = min 1 1 ∧
    (wE2.read_reqs.filter Option.isSome).length ≤ min 1 1 ∧
    (wE2.read_reqs.filter fun o =>
      match o with
      | some r => !r.done
      | none => false).length ≤ min 1 1 :=
  prefetcher_inflight_bound 1 1 [0] false (by decide) (by decide)
    (by decide) wE2 wT2 wRun2

/-! ### Return value of `block_consumed` (claim C5) -/

theorem ioComplete_frame (e : BlockPrefetcher) (slot : Nat) :
    (ioComplete e slot).1.nextconsume = e.nextconsume ∧
    (ioComplete e slot).1.seq_length = e.seq_length := by
  unfold ioComplete
  split
  · split
    · exact ⟨rfl, rfl⟩
    · exact ⟨rfl, rfl⟩
  · exact ⟨rfl, rfl⟩

theorem applyCompletes_frame :
    ∀ (inner : List Nat) (e : BlockPrefetcher),
    (applyCompletes e inner).1.nextconsume = e.nextconsume ∧
    (applyCompletes e inner).1.seq_length = e.seq_length := by
  intro inner
  induction inner with
  | nil => intro e; exact ⟨rfl, rfl⟩
  | cons slot rest ih =>
    intro e
    have h1 := ioComplete_frame e slot
    have h2 := ih (ioComplete e slot).1
    show (applyCompletes (ioComplete e slot).1 rest).1.nextconsume
        = e.nextconsume ∧
      (applyCompletes (ioComplete e slot).1 rest).1.seq_length
        = e.seq_length
    rw [h2.1, h2.2, h1.1, h1.2]
    exact ⟨rfl, rfl⟩

theorem consumeRecycle_frame (e : BlockPrefetcher) (ibuffer : Nat) :
    (consumeRecycle e ibuffer).1.nextconsume = e.nextconsume ∧
    (consumeRecycle e ibuffer).1.seq_length = e.seq_length := by
  unfold consumeRecycle
  dsimp only
  split
  · exact ⟨rfl, rfl⟩
  · exact ⟨rfl, rfl⟩

theorem consumeMid_frame (e : BlockPrefetcher) (ibuffer : Nat)
    (inner : List Nat) :
    (consumeMid e ibuffer inner).nextconsume = e.nextconsume ∧
    (consumeMid e ibuffer inner).seq_length = e.seq_length := by
  unfold consumeMid
  have h1 := consumeRecycle_frame e ibuffer
  have h2 := applyCompletes_frame inner (consumeRecycle e ibuffer).1
  rw [h2.1, h2.2, h1.1, h1.2]
  exact ⟨rfl, rfl⟩

/-- The return value of `block_consumed` is `true` exactly when the
`nextconsume >= seq_length` check fails, i.e. when there was still a
position to deliver. -/
theorem block_consumed_ret_iff (e : BlockPrefetcher) (ibuffer : Nat)
    (inner : List Nat) :
    ((block_consumed e ibuffer inner).ret = true
      ↔ e.nextconsume < e.seq_length) := by
  have hmid := consumeMid_frame e ibuffer inner
  unfold block_consumed
  dsimp only
  have hnc : (applyCompletes (consumeRecycle e ibuffer).1 inner).1.nextconsume
      = e.nextconsume := hmid.1
  have hsl : (applyCompletes (consumeRecycle e ibuffer).1 inner).1.seq_length
      = e.seq_length := hmid.2
  split
  case isTrue h =>
    rw [hnc, hsl] at h
    simp only
    constructor
    · intro hcon
      exact Bool.noConfusion hcon
    · intro hcon
      omega
  case isFalse h =>
    rw [hnc, hsl] at h
    simp only
    constructor
    · intro _
      omega
    · intro _
      trivial

theorem block_consumed_nextconsume (e : BlockPrefetcher) (ibuffer : Nat)
    (inner : List Nat) :
    (block_consumed e ibuffer inner).engine.nextconsume = e.nextconsume ∨
    (block_consumed e ibuffer inner).engine.nextconsume
      = e.nextconsume + 1 := by
  have hmid := consumeMid_frame e ibuffer inner
  unfold block_consumed
  dsimp only
  split
  · left
    exact hmid.1
  · right
    have hmid2 : (applyCompletes
        (consumeRecycle e ibuffer).1 inner).1.nextconsume
        = e.nextconsume := hmid.1
    show (applyCompletes (consumeRecycle e ibuffer).1 inner).1.nextconsume + 1
      = e.nextconsume + 1
    rw [hmid2]

/-- Counter `nextconsume` never decreases along a run. -/
theorem run_nextconsume_mono (a : BlockPrefetcher) :
    ∀ b tr, Run a b tr → a.nextconsume ≤ b.nextconsume := by
  intro b tr h
  induction h with
  | refl => exact Nat.le_refl _
  | complete b2 tr2 slot h ih =>
    have := (ioComplete_frame b2 slot).1
    omega
  | pull b2 tr2 h hc ih =>
    show a.nextconsume ≤ b2.nextconsume + 1
    omega
  | consume b2 tr2 ibuffer inner h hc ih =>
    rcases block_consumed_nextconsume b2 ibuffer inner with h2 | h2 <;> omega

/-- Field `seq_length` never changes along a run. -/
theorem run_seq_length_eq (a : BlockPrefetcher) :
    ∀ b tr, Run a b tr → b.seq_length = a.seq_length := by
  intro b tr h
  induction h with
  | refl => rfl
  | complete b2 tr2 slot h ih =>
    rw [(ioComplete_frame b2 slot).2, ih]
  | pull b2 tr2 h hc ih =>
    show b2.seq_length = a.seq_length
    exact ih
  | consume b2 tr2 ibuffer inner h hc ih =>
    have hmid := consumeMid_frame b2 ibuffer inner
    rw [← ih]
    unfold block_consumed
    dsimp only
    split
    · exact hmid.2
    · exact hmid.2

/-- C5: in every reachable state, an enabled `block_consumed` returns
`true` exactly when `nextconsume < N` at the return-value check; once
`nextconsume` has reached `N` it stays there, every later enabled
`block_consumed` returns `false`, and such a call's enabledness does not
depend on any completion signal (it performs no wait on one). -/
theorem block_consumed_return_semantics (N B : Nat) (sched : List Nat)
    (cb : Bool) (hN : 0 < N) (hB : 0 < B) (hs : SchedOK N sched)
    (e : BlockPrefetcher) (tr : List Event)
    (hrun : Run (block_prefetcher_init N sched B cb) e tr) :
    (∀ ibuffer inner,
      ((block_consumed e ibuffer inner).ret = true
        ↔ e.nextconsume < N)) ∧
    (∀ e2 tr2, Run e e2 tr2 → e.nextconsume ≤ e2.nextconsume) ∧
    (N ≤ e.nextconsume → ∀ e2 tr2, Run e e2 tr2 →
      ∀ ibuffer inner, (block_consumed e2 ibuffer inner).ret = false) ∧
    (N ≤ e.nextconsume → ∀ c ibuffer inner,
      canConsume { e with completed := c } ibuffer inner
        = canConsume e ibuffer inner) := by
  have hinv := inv_run N B sched cb hs e tr hrun
  refine ⟨?_, ?_, ?_, ?_⟩
  · intro ibuffer inner
    rw [block_consumed_ret_iff, hinv.seq_len]
  · intro e2 tr2 h2
    exact run_nextconsume_mono e e2 tr2 h2
  · intro hge e2 tr2 h2 ibuffer inner
    have hmono := run_nextconsume_mono e e2 tr2 h2
    have hseq : e2.seq_length = N := by
      rw [run_seq_length_eq e e2 tr2 h2, hinv.seq_len]
    rw [← Bool.not_eq_true, block_consumed_ret_iff, hseq]
    omega
  · intro hge c ibuffer inner
    have hm1 := consumeMid_frame { e with completed := c } ibuffer inner
    have hm2 := consumeMid_frame e ibuffer inner
    unfold canConsume
    have hd1 : decide
        ((consumeMid { e with completed := c } ibuffer inner).nextconsume
          < (consumeMid { e with completed := c } ibuffer inner).seq_length)
        = false := by
      rw [decide_eq_false_iff_not, hm1.1, hm1.2]
      show ¬ (e.nextconsume < e.seq_length)
      rw [hinv.seq_len]
      omega
    have hd2 : decide ((consumeMid e ibuffer inner).nextconsume
        < (consumeMid e ibuffer inner).seq_length) = false := by
      rw [decide_eq_false_iff_not, hm2.1, hm2.2, hinv.seq_len]
      omega
    rw [hd1, hd2]
    show (decide (ibuffer < e.nreadblocks) && reqRetired e ibuffer
        && (!false || _)) = (decide (ibuffer < e.nreadblocks)
        && reqRetired e ibuffer && (!false || _))
    rw [Bool.not_false, Bool.true_or, Bool.true_or]

/-- Concrete instance of `block_consumed_return_semantics` on the
one-block run. -/
theorem block_consumed_return_semantics_witness :
    (∀ ibuffer inner,
      ((block_consumed wE2 ibuffer inner).ret = true
        ↔ wE2.nextconsume < 1)) ∧
    (∀ e2 tr2, Run wE2 e2 tr2 → wE2.nextconsume ≤ e2.nextconsume) ∧
    (1 ≤ wE2.nextconsume → ∀ e2 tr2, Run wE2 e2 tr2 →
      ∀ ibuffer inner, (block_consumed e2 ibuffer inner).ret = false) ∧
    (1 ≤ wE2.nextconsume → ∀ c ibuffer inner,
      canConsume { wE2 with completed := c } ibuffer inner
        = canConsume wE2 ibuffer inner) :=
  block_consumed_return_semantics 1 1 [0] false (by decide) (by decide)
    (by decide) wE2 wT2 wRun2

/-- C3: every enabled `block_consumed` call has already waited for the
freed slot's request to retire (unconditionally, before any reissue);
then, if `nextread < N`, its recycle phase issues a new read for
position `schedule[nextread]` into the very same freed slot, records the
map entry and increments `nextread`, while if `nextread >= N` it only
clears the slot's handle and leaves `nextread` unchanged. -/
theorem block_consumed_recycle_reissue (N B : Nat) (sched : List Nat)
    (cb : Bool) (hN : 0 < N) (hB : 0 < B) (hs : SchedOK N sched)
    (e : BlockPrefetcher) (tr : List Event)
    (hrun : Run (block_prefetcher_init N sched B cb) e tr)
    (ibuffer : Nat) (inner : List Nat)
    (hc : canConsume e ibuffer inner = true) :
    reqRetired e ibuffer = true ∧
    (e.nextread < N →
      reqAt (consumeRecycle e ibuffer).1 ibuffer
          = some ⟨sched.getD e.nextread 0, false⟩ ∧
      prefAt (consumeRecycle e ibuffer).1 (sched.getD e.nextread 0)
          = some ibuffer ∧
      (consumeRecycle e ibuffer).1.nextread = e.nextread + 1) ∧
    (N ≤ e.nextread →
      reqAt (consumeRecycle e ibuffer).1 ibuffer = none ∧
      (consumeRecycle e ibuffer).1.nextread = e.nextread) := by
  have hinv := inv_run N B sched cb hs e tr hrun
  unfold canConsume at hc
  rw [Bool.and_eq_true, Bool.and_eq_true] at hc
  obtain ⟨⟨hA, hB2⟩, hC⟩ := hc
  have hib : ibuffer < e.nreadblocks := of_decide_eq_true hA
  have hiblen : ibuffer < e.read_reqs.length := by
    rw [hinv.len_reqs, ← hinv.nrb]
    exact hib
  refine ⟨hB2, ?_, ?_⟩
  · intro hnr
    have hnr2 : e.nextread < e.seq_length := by
      rw [hinv.seq_len]; exact hnr
    have hposN : sched.getD e.nextread 0 < N := sched_getD_lt hs hnr
    unfold consumeRecycle
    dsimp only
    rw [if_pos hnr2, hinv.pseq]
    refine ⟨?_, ?_, rfl⟩
    · show ((e.read_reqs.set ibuffer none).set ibuffer
        (some ⟨sched.getD e.nextread 0, false⟩)).getD ibuffer none = _
      rw [getD_set_self _ _ _ _ (by simpa using hiblen)]
    · show (e.pref_buffer.set (sched.getD e.nextread 0)
        (some ibuffer)).getD (sched.getD e.nextread 0) none = _
      rw [getD_set_self _ _ _ _ (by rw [hinv.len_pref]; omega)]
  · intro hge
    have hnr2 : ¬ (e.nextread < e.seq_length) := by
      rw [hinv.seq_len]; omega
    unfold consumeRecycle
    dsimp only
    rw [if_neg hnr2]
    refine ⟨?_, rfl⟩
    show (e.read_reqs.set ibuffer none).getD ibuffer none = none
    rw [getD_set_self _ _ _ _ hiblen]

/-- Concrete instance of `block_consumed_recycle_reissue` on the
one-block run (`nextread` already at `N`, so only the slot clear
applies). -/
theorem block_consumed_recycle_reissue_witness :
    reqRetired wE2 0 = true ∧
    (wE2.nextread < 1 →
      reqAt (consumeRecycle wE2 0).1 0
          = some ⟨[0].getD wE2.nextread 0, false⟩ ∧
      prefAt (consumeRecycle wE2 0).1 ([0].getD wE2.nextread 0)
          = some 0 ∧
      (consumeRecycle wE2 0).1.nextread = wE2.nextread + 1) ∧
    (1 ≤ wE2.nextread →
      reqAt (consumeRecycle wE2 0).1 0 = none ∧
      (consumeRecycle wE2 0).1.nextread = wE2.nextread) :=
  block_consumed_recycle_reissue 1 1 [0] false (by decide) (by decide)
    (by decide) wE2 wT2 wRun2 0 [] (by decide)

/-- C6: the completion adapter invokes the user callback (when present)
before turning the bound signal on, each position's callback runs at
most once overall and exactly once — strictly earlier in the trace —
whenever that position's block is delivered, and a delivery is always
preceded by the position's signal turning on. -/
theorem completion_callback_order (N B : Nat) (sched : List Nat)
    (cb : Bool) (hN : 0 < N) (hB : 0 < B) (hs : SchedOK N sched)
    (e : BlockPrefetcher) (tr : List Event)
    (hrun : Run (block_prefetcher_init N sched B cb) e tr) :
    (∀ pos, set_switch_handler true pos
        = [Event.callback pos, Event.signalOn pos]) ∧
    (∀ p, tr.count (Event.callback p) ≤ 1) ∧
    (cb = true → ∀ i : Nat, ∀ p s, tr[i]? = some (Event.deliver p s) →
      tr.count (Event.callback p) = 1 ∧
      ∃ k : Nat, k < i ∧ tr[k]? = some (Event.callback p)) ∧
    (∀ i : Nat, ∀ p s, tr[i]? = some (Event.deliver p s) →
      ∃ j : Nat, j < i ∧ tr[j]? = some (Event.signalOn p)) := by
  have hinv := inv_run N B sched cb hs e tr hrun
  refine ⟨fun pos => rfl, hinv.cb_count, ?_, ?_⟩
  · intro hcb i p s hi
    have hmem := getElem_mem_of_some _ _ _ hi
    have hcomp := hinv.deliv_comp p s hmem
    have hcbmem := (hinv.cb_iff hcb p).mpr hcomp
    have hle := hinv.cb_count p
    have hne : tr.count (Event.callback p) ≠ 0 := by
      intro h0
      exact absurd hcbmem (List.count_eq_zero.mp h0)
    exact ⟨by omega, (hinv.deliv_after i p s hi).1 hcb⟩
  · intro i p s hi
    exact (hinv.deliv_after i p s hi).2

/-! ### A concrete run with the callback present: N = 1, B = 1 -/

def vE0 : BlockPrefetcher := block_prefetcher_init 1 [0] 1 true

def vE1 : BlockPrefetcher := (ioComplete vE0 0).1

def vT1 : List Event := [] ++ (ioComplete vE0 0).2

def vE2 : BlockPrefetcher := (pull_block vE1).1

def vT2 : List Event := vT1 ++ (pull_block vE1).2.2

theorem vRun2 : Run vE0 vE2 vT2 :=
  Run.pull vE0 vE1 vT1 (Run.complete vE0 vE0 [] 0 (Run.refl vE0))
    (by decide)

/-- Concrete instance of `completion_callback_order` on a one-block run
with the callback present. -/
theorem completion_callback_order_witness :
    (∀ pos, set_switch_handler true pos
        = [Event.callback pos, Event.signalOn pos]) ∧
    (∀ p, vT2.count (Event.callback p) ≤ 1) ∧
    (true = true → ∀ i : Nat, ∀ p s, vT2[i]? = some (Event.deliver p s) →
      vT2.count (Event.callback p) = 1 ∧
      ∃ k : Nat, k < i ∧ vT2[k]? = some (Event.callback p)) ∧
    (∀ i : Nat, ∀ p s, vT2[i]? = some (Event.deliver p s) →
      ∃ j : Nat, j < i ∧ vT2[j]? = some (Event.signalOn p)) :=
  completion_callback_order 1 1 [0] true (by decide) (by decide)
    (by decide) vE2 vT2 vRun2

end Foxxll
